import Mathlib

/-!
Paddle, `paddle/fluid/platform/eigen_ext.h`.

A verification development for the numeric-trait registry (`Eigen::NumTraits<bfloat16>`)
and the elementwise math overlay (`Eigen::numext`) that `eigen_ext.h` supplies for
`bfloat16`, `complex64` and `complex128`.

Floating-point values are modelled by their bit patterns (natural numbers), read through a
binary interchange layout `Fmt` (one sign bit, `ew` exponent bits, `mw` mantissa bits).
The host operations the header calls (`ceilf`, `floorf`, `roundf`, `floor`, `fabs`, the
`float`/`double` conversions) are modelled exactly: the mathematical result, rounded to
nearest-even into the destination layout.
-/

namespace IEEE

/-- Binary floating-point layout: one sign bit, `ew` exponent bits, `mw` mantissa bits. -/
structure Fmt where
  ew : Nat
  mw : Nat
deriving DecidableEq, Repr

/-- Decoded meaning of a bit pattern: a NaN, a signed infinity, or a signed finite
magnitude (the sign is kept apart so that the two zeros stay distinct). -/
inductive Val where
  | nan : Val
  | inf (neg : Bool) : Val
  | fin (neg : Bool) (mag : ℚ) : Val
deriving DecidableEq

/-- Absolute value of a decoded value. -/
def Val.abs : Val → Val
  | Val.nan => Val.nan
  | Val.inf _ => Val.inf false
  | Val.fin _ q => Val.fin false q

namespace Fmt

/-- Exponent bias `2^(ew-1) - 1`. -/
def bias (F : Fmt) : Nat := 2 ^ (F.ew - 1) - 1

/-- Every finite magnitude of the layout is an integer multiple of `2^(-scale)`. -/
def scale (F : Fmt) : Nat := F.bias + F.mw - 1

/-- The all-ones exponent field (infinities and NaNs). -/
def expAll (F : Fmt) : Nat := 2 ^ F.ew - 1

/-- Sign bit of a pattern. -/
def sign (F : Fmt) (b : Nat) : Bool := b / 2 ^ (F.ew + F.mw) % 2 == 1

/-- Biased exponent field of a pattern. -/
def expo (F : Fmt) (b : Nat) : Nat := b / 2 ^ F.mw % 2 ^ F.ew

/-- Mantissa field of a pattern. -/
def mant (F : Fmt) (b : Nat) : Nat := b % 2 ^ F.mw

/-- NaN: exponent all ones, mantissa non-zero. -/
def isnan (F : Fmt) (b : Nat) : Bool := F.expo b == F.expAll && F.mant b != 0

/-- Infinity: exponent all ones, mantissa zero. -/
def isinf (F : Fmt) (b : Nat) : Bool := F.expo b == F.expAll && F.mant b == 0

/-- Finite: exponent field not all ones. -/
def isfinite (F : Fmt) (b : Nat) : Bool := F.expo b != F.expAll

/-- Magnitude, in units of `2^(-scale)`, of exponent field `E` and mantissa field `m`:
subnormal `m` when `E = 0`, otherwise `(2^mw + m) * 2^(E-1)`. -/
def mag (F : Fmt) (E m : Nat) : Nat :=
  if E = 0 then m else (2 ^ F.mw + m) * 2 ^ (E - 1)

/-- Magnitude of a pattern in units of `2^(-scale)`. -/
def scaled (F : Fmt) (b : Nat) : Nat := F.mag (F.expo b) (F.mant b)

/-- Exact rational value of a finite pattern. -/
def toRat (F : Fmt) (b : Nat) : ℚ :=
  (if F.sign b then -1 else 1) * (F.scaled b : ℚ) / 2 ^ F.scale

/-- Decoded value of a pattern. -/
def decode (F : Fmt) (b : Nat) : Val :=
  if F.isnan b then Val.nan
  else if F.isinf b then Val.inf (F.sign b)
  else Val.fin (F.sign b) ((F.scaled b : ℚ) / 2 ^ F.scale)

/-- The sign bit as a summand of the pattern. -/
def signBits (F : Fmt) (neg : Bool) : Nat := if neg then 2 ^ (F.ew + F.mw) else 0

/-- Binary search for the binade of a scaled magnitude `q`: the largest `j < 2^ew` with
`2^(mw + j) ≤ q` (and `0` when there is none). -/
def binade (F : Fmt) (q : Nat) : Nat → Nat → Nat
  | 0, acc => acc
  | i + 1, acc =>
    if 2 ^ (F.mw + acc + 2 ^ i) ≤ q then binade F q i (acc + 2 ^ i) else binade F q i acc

/-- Round the exact magnitude `A / B` (in units of `2^(-scale)`) to the nearest pattern of
the layout, ties to even; a carry out of the mantissa moves into the exponent field and
overflow saturates at infinity. -/
def roundNE (F : Fmt) (neg : Bool) (A B : Nat) : Nat :=
  let j := F.binade (A / B) F.ew 0
  let d := B * 2 ^ j
  let n0 := A / d
  let r := A % d
  let n := if d < 2 * r ∨ (2 * r = d ∧ n0 % 2 = 1) then n0 + 1 else n0
  F.signBits neg + min (j * 2 ^ F.mw + n) (F.expAll * 2 ^ F.mw)

/-- Conversion between layouts (`static_cast` between `float` and `double`): NaN stays NaN
(quieted, payload kept from the top), infinities keep their sign, finite values are rounded
to nearest-even. -/
def convert (F G : Fmt) (b : Nat) : Nat :=
  if F.isnan b then
    G.signBits (F.sign b) + G.expAll * 2 ^ G.mw
      + (2 ^ (G.mw - 1) ||| F.mant b * 2 ^ G.mw / 2 ^ F.mw)
  else if F.isinf b then G.signBits (F.sign b) + G.expAll * 2 ^ G.mw
  else G.roundNE (F.sign b) (F.scaled b * 2 ^ G.scale) (2 ^ F.scale)

/-- Largest integral magnitude (multiple of `2^scale` units) not above `N`. -/
def downMag (F : Fmt) (N : Nat) : Nat := N / 2 ^ F.scale * 2 ^ F.scale

/-- Smallest integral magnitude not below `N`. -/
def upMag (F : Fmt) (N : Nat) : Nat :=
  if N % 2 ^ F.scale = 0 then N else (N / 2 ^ F.scale + 1) * 2 ^ F.scale

/-- Magnitude of `floor`: towards zero for a positive operand, away from zero for a
negative one. -/
def floorMag (F : Fmt) (neg : Bool) (N : Nat) : Nat :=
  if neg then F.upMag N else F.downMag N

/-- Magnitude of `ceil`: away from zero for a positive operand, towards zero for a
negative one. -/
def ceilMag (F : Fmt) (neg : Bool) (N : Nat) : Nat :=
  if neg then F.downMag N else F.upMag N

/-- Magnitude of `round`: nearest integer, halves away from zero. -/
def roundMag (F : Fmt) (N : Nat) : Nat :=
  (N + 2 ^ (F.scale - 1)) / 2 ^ F.scale * 2 ^ F.scale

/-- C `floor` on the layout: the largest integer not above the operand, with the operand's
sign; infinities and NaNs are returned as they are. -/
def floor (F : Fmt) (b : Nat) : Nat :=
  if F.isfinite b then F.roundNE (F.sign b) (F.floorMag (F.sign b) (F.scaled b)) 1 else b

/-- C `ceil` on the layout: the smallest integer not below the operand, with the operand's
sign. -/
def ceil (F : Fmt) (b : Nat) : Nat :=
  if F.isfinite b then F.roundNE (F.sign b) (F.ceilMag (F.sign b) (F.scaled b)) 1 else b

/-- C `round` on the layout: nearest integer, halves away from zero. -/
def round (F : Fmt) (b : Nat) : Nat :=
  if F.isfinite b then F.roundNE (F.sign b) (F.roundMag (F.scaled b)) 1 else b

/-- C `fabs` on the layout: the sign bit is cleared. -/
def fabs (F : Fmt) (b : Nat) : Nat := b % 2 ^ (F.ew + F.mw)

/-- The rational literal `num / den`, rounded to the nearest pattern. -/
def literal (F : Fmt) (neg : Bool) (num den : Nat) : Nat :=
  F.roundNE neg (num * 2 ^ F.scale) den

/-- A magnitude (in units of `2^(-scale)`) is representable when a finite field pair has
it. -/
def Rep (F : Fmt) (M : Nat) : Prop :=
  ∃ E m, m < 2 ^ F.mw ∧ E < F.expAll ∧ F.mag E m = M

/-- Side conditions every layout used here meets: the value `1` and the whole binade of
integers `2^mw .. 2^(mw+1)` lie inside the exponent range. -/
def Valid (F : Fmt) : Prop := 0 < F.scale ∧ F.scale + 2 ≤ F.expAll

end Fmt

/-- The bfloat16 layout: 1 sign bit, 8 exponent bits (bias 127), 7 mantissa bits. -/
def bf16 : Fmt := ⟨8, 7⟩

/-- IEEE binary32, the host `float`. -/
def f32 : Fmt := ⟨8, 23⟩

/-- IEEE binary64, the host `double`. -/
def f64 : Fmt := ⟨11, 52⟩

/-- Host `ceilf`. -/
def ceilf (x : Nat) : Nat := f32.ceil x

/-- Host `floorf`. -/
def floorf (x : Nat) : Nat := f32.floor x

/-- Host `roundf`. -/
def roundf (x : Nat) : Nat := f32.round x

/-- Host double-precision `floor`. -/
def floor (x : Nat) : Nat := f64.floor x

/-- Host double-precision `ceil`. -/
def ceil (x : Nat) : Nat := f64.ceil x

/-- Host double-precision `round`. -/
def round (x : Nat) : Nat := f64.round x

/-- Host double-precision `fabs`. -/
def fabs (x : Nat) : Nat := f64.fabs x

/-- Host single-precision `fabsf`. -/
def fabsf (x : Nat) : Nat := f32.fabs x

/-- Implicit promotion `float → double`. -/
def float_to_double (x : Nat) : Nat := Fmt.convert f32 f64 x

/-- Implicit narrowing `double → float`. -/
def double_to_float (x : Nat) : Nat := Fmt.convert f64 f32 x

end IEEE

namespace paddle.platform

open IEEE

/-- The struct `bfloat16`: one `uint16_t` field `x` holding the bit pattern. -/
structure bfloat16 where
  x : Nat
deriving DecidableEq, Repr

/-- The struct `complex64`: two `float` components, held as binary32 bit patterns. -/
structure complex64 where
  real : Nat
  imag : Nat
deriving DecidableEq, Repr

/-- The struct `complex128`: two `double` components, held as binary64 bit patterns. -/
structure complex128 where
  real : Nat
  imag : Nat
deriving DecidableEq, Repr

/-- Modelled from the spec: `raw_uint16_to_bfloat16` of `bfloat16.h` (not among the sources)
stores its `uint16_t` argument as the bit pattern. -/
def raw_uint16_to_bfloat16 (a : Nat) : bfloat16 := ⟨a % 65536⟩

/-- Modelled from the spec: the classification helper `isnan` of `bfloat16.h` (not among the
sources): exponent field all ones and mantissa non-zero. -/
def isnan (a : bfloat16) : Bool := bf16.isnan a.x

/-- Modelled from the spec: the classification helper `isinf` of `bfloat16.h` (not among the
sources): exponent field all ones and mantissa zero. -/
def isinf (a : bfloat16) : Bool := bf16.isinf a.x

/-- Modelled from the spec: the classification helper `isfinite` of `bfloat16.h` (not among
the sources): neither NaN nor infinite. -/
def isfinite (a : bfloat16) : Bool := !isnan a && !isinf a

/-- The two conversions of `bfloat16.h` (not among the sources) that the overlay calls:
`static_cast<float>(a)` and the constructor `bfloat16(float)`. -/
structure Conversion where
  toFloat : bfloat16 → Nat
  ofFloat : Nat → bfloat16

/-- Widening is exact: a non-NaN bfloat16 and its `float` image decode to the same value. -/
def Conversion.WidenExact (C : Conversion) : Prop :=
  ∀ a : bfloat16, a.x < 65536 → isnan a = false → f32.decode (C.toFloat a) = bf16.decode a.x

/-- Narrowing is exact on representable values: a `float` that decodes to the value of a
non-NaN bfloat16 `a` narrows to `a`. -/
def Conversion.NarrowExact (C : Conversion) : Prop :=
  ∀ (f : Nat) (a : bfloat16), a.x < 65536 → isnan a = false →
    f32.decode f = bf16.decode a.x → C.ofFloat f = a

/-- Modelled from the spec: widening places the 16 bits in the upper half of a binary32
pattern. -/
def widen (a : bfloat16) : Nat := a.x % 65536 * 65536

/-- Modelled from the spec: narrowing by truncation keeps the upper 16 bits of the binary32
pattern. -/
def truncate (f : Nat) : bfloat16 := ⟨f / 65536 % 65536⟩

/-- Modelled from the spec: narrowing by rounding to nearest, ties to even. -/
def nearest (f : Nat) : bfloat16 := ⟨Fmt.convert f32 bf16 f % 65536⟩

/-- The conversion pair that narrows by truncation. -/
def truncating : Conversion := ⟨widen, truncate⟩

/-- The conversion pair that narrows by rounding to nearest. -/
def rounding : Conversion := ⟨widen, nearest⟩

/-- Host functions the overlay calls and this development leaves uninterpreted: the
single-precision transcendentals and the two multiplications. -/
structure Host where
  expf : Nat → Nat
  cosf : Nat → Nat
  sinf : Nat → Nat
  mulf : Nat → Nat → Nat
  muld : Nat → Nat → Nat

end paddle.platform

namespace Eigen

open IEEE paddle.platform

namespace NumTraits_bfloat16

/-- `NumTraits<bfloat16>::epsilon()`. -/
def epsilon : bfloat16 := raw_uint16_to_bfloat16 0x3400

/-- The literal `1e-5f`: the binary32 nearest to `1/100000`. -/
def lit_1em5f : Nat := f32.literal false 1 100000

/-- `NumTraits<bfloat16>::dummy_precision()`. -/
def dummy_precision (C : Conversion) : bfloat16 := C.ofFloat lit_1em5f

/-- `NumTraits<bfloat16>::highest()`. -/
def highest : bfloat16 := raw_uint16_to_bfloat16 0x7f7f

/-- `NumTraits<bfloat16>::lowest()`. -/
def lowest : bfloat16 := raw_uint16_to_bfloat16 0xff7f

/-- `NumTraits<bfloat16>::infinity()`. -/
def infinity : bfloat16 := raw_uint16_to_bfloat16 0x7f80

/-- `NumTraits<bfloat16>::quiet_NaN()`. -/
def quiet_NaN : bfloat16 := raw_uint16_to_bfloat16 0xffc1

end NumTraits_bfloat16

namespace numext

/-- `numext::isnan<bfloat16>`. -/
def isnan (a : bfloat16) : Bool := paddle.platform.isnan a

/-- `numext::isinf<bfloat16>`. -/
def isinf (a : bfloat16) : Bool := paddle.platform.isinf a

/-- `numext::isfinite<bfloat16>`. -/
def isfinite (a : bfloat16) : Bool := paddle.platform.isfinite a

/-- `numext::ceil<bfloat16>`: `bfloat16(::ceilf(static_cast<float>(a)))`. -/
def ceil_bfloat16 (C : Conversion) (a : bfloat16) : bfloat16 :=
  C.ofFloat (ceilf (C.toFloat a))

/-- `numext::floor<bfloat16>`: `bfloat16(::floorf(static_cast<float>(a)))`. -/
def floor_bfloat16 (C : Conversion) (a : bfloat16) : bfloat16 :=
  C.ofFloat (floorf (C.toFloat a))

/-- `numext::round<bfloat16>`: `bfloat16(::roundf(static_cast<float>(a)))`. -/
def round_bfloat16 (C : Conversion) (a : bfloat16) : bfloat16 :=
  C.ofFloat (roundf (C.toFloat a))

/-- `numext::abs<bfloat16>`: `bfloat16(::fabs(static_cast<float>(a)))`; `::fabs` is the
double-precision function, so the `float` is promoted, and the `double` result is narrowed
to `float` before the `bfloat16(float)` constructor runs. -/
def abs_bfloat16 (C : Conversion) (a : bfloat16) : bfloat16 :=
  C.ofFloat (double_to_float (fabs (float_to_double (C.toFloat a))))

/-- The same computation with a single-precision intermediate (`::fabsf`). -/
def abs_bfloat16_single (C : Conversion) (a : bfloat16) : bfloat16 :=
  C.ofFloat (fabsf (C.toFloat a))

/-- `numext::exp<complex64>`. -/
def exp_complex64 (H : Host) (a : complex64) : complex64 :=
  let com := H.expf a.real
  let res_real := H.mulf com (H.cosf a.imag)
  let res_imag := H.mulf com (H.sinf a.imag)
  ⟨res_real, res_imag⟩

/-- `numext::ceil<complex64>`. -/
def ceil_complex64 (a : complex64) : complex64 := ⟨ceilf a.real, ceilf a.imag⟩

/-- `numext::floor<complex64>`: the imaginary part goes through `::floor`, the
double-precision function, and back to `float`. -/
def floor_complex64 (a : complex64) : complex64 :=
  ⟨floorf a.real, double_to_float (floor (float_to_double a.imag))⟩

/-- `numext::round<complex64>`. -/
def round_complex64 (a : complex64) : complex64 := ⟨roundf a.real, roundf a.imag⟩

/-- `numext::exp<complex128>`: every transcendental is the single-precision one, so each
argument is narrowed to `float` and each result promoted to `double`. -/
def exp_complex128 (H : Host) (a : complex128) : complex128 :=
  let com := float_to_double (H.expf (double_to_float a.real))
  let res_real := H.muld com (float_to_double (H.cosf (double_to_float a.imag)))
  let res_imag := H.muld com (float_to_double (H.sinf (double_to_float a.imag)))
  ⟨res_real, res_imag⟩

/-- `numext::ceil<complex128>`: both components go through `::ceilf`. -/
def ceil_complex128 (a : complex128) : complex128 :=
  ⟨float_to_double (ceilf (double_to_float a.real)),
   float_to_double (ceilf (double_to_float a.imag))⟩

/-- `numext::floor<complex128>`: `::floorf` on the real part, `::floor` on the imaginary. -/
def floor_complex128 (a : complex128) : complex128 :=
  ⟨float_to_double (floorf (double_to_float a.real)), floor a.imag⟩

/-- `numext::round<complex128>`: both components go through `::roundf`. -/
def round_complex128 (a : complex128) : complex128 :=
  ⟨float_to_double (roundf (double_to_float a.real)),
   float_to_double (roundf (double_to_float a.imag))⟩

end numext

end Eigen

/-! Bit fields and exact rounding. -/

namespace IEEE.Fmt

theorem pow_pos2 (n : Nat) : 0 < 2 ^ n := Nat.pos_pow_of_pos n (by decide)

theorem expo_lt (F : Fmt) (b : Nat) : F.expo b < 2 ^ F.ew := Nat.mod_lt _ (pow_pos2 _)

theorem mant_lt (F : Fmt) (b : Nat) : F.mant b < 2 ^ F.mw := Nat.mod_lt _ (pow_pos2 _)

/-- The bits below the sign bit are the exponent field followed by the mantissa field. -/
theorem mod_eq_expo_mant (F : Fmt) (b : Nat) :
    b % 2 ^ (F.ew + F.mw) = F.expo b * 2 ^ F.mw + F.mant b := by
  unfold expo mant
  rw [Nat.add_comm F.ew, Nat.pow_add, Nat.mod_mul]
  ring

theorem expo_mk (F : Fmt) (E m : Nat) (hm : m < 2 ^ F.mw) (hE : E < 2 ^ F.ew) :
    F.expo (E * 2 ^ F.mw + m) = E := by
  unfold expo
  rw [Nat.add_comm, Nat.add_mul_div_right _ _ (pow_pos2 _), Nat.div_eq_of_lt hm, Nat.zero_add,
    Nat.mod_eq_of_lt hE]

theorem mant_mk (F : Fmt) (E m : Nat) (hm : m < 2 ^ F.mw) :
    F.mant (E * 2 ^ F.mw + m) = m := by
  unfold mant
  rw [Nat.add_comm, Nat.add_mul_mod_self_right, Nat.mod_eq_of_lt hm]

theorem expo_signBits_add (F : Fmt) (s : Bool) (k : Nat) :
    F.expo (F.signBits s + k) = F.expo k := by
  unfold expo signBits
  cases s
  · simp
  · simp only [if_true]
    rw [Nat.pow_add, Nat.add_comm, Nat.add_mul_div_right _ _ (pow_pos2 _), Nat.add_mod_right]

theorem mant_signBits_add (F : Fmt) (s : Bool) (k : Nat) :
    F.mant (F.signBits s + k) = F.mant k := by
  unfold mant signBits
  cases s
  · simp
  · simp only [if_true]
    rw [Nat.pow_add, Nat.add_comm, Nat.add_mul_mod_self_right]

theorem sign_signBits_add (F : Fmt) (s : Bool) (k : Nat) (hk : k < 2 ^ (F.ew + F.mw)) :
    F.sign (F.signBits s + k) = s := by
  unfold sign signBits
  cases s
  · simp [Nat.div_eq_of_lt hk]
  · simp only [if_true]
    rw [Nat.add_comm, Nat.add_div_right _ (pow_pos2 _), Nat.div_eq_of_lt hk]
    rfl

theorem scaled_signBits_add (F : Fmt) (s : Bool) (k : Nat) :
    F.scaled (F.signBits s + k) = F.scaled k := by
  unfold scaled
  rw [expo_signBits_add, mant_signBits_add]

theorem isfinite_signBits_add (F : Fmt) (s : Bool) (k : Nat) :
    F.isfinite (F.signBits s + k) = F.isfinite k := by
  unfold isfinite
  rw [expo_signBits_add]

theorem isnan_signBits_add (F : Fmt) (s : Bool) (k : Nat) :
    F.isnan (F.signBits s + k) = F.isnan k := by
  unfold isnan
  rw [expo_signBits_add, mant_signBits_add]

theorem isinf_signBits_add (F : Fmt) (s : Bool) (k : Nat) :
    F.isinf (F.signBits s + k) = F.isinf k := by
  unfold isinf
  rw [expo_signBits_add, mant_signBits_add]

/-- Invariant of the binary search. -/
theorem binade_spec (F : Fmt) (q : Nat) : ∀ (i acc : Nat),
    (acc = 0 ∨ 2 ^ (F.mw + acc) ≤ q) → q < 2 ^ (F.mw + acc + 2 ^ i) →
    q < 2 ^ (F.mw + F.binade q i acc + 1) ∧
      (F.binade q i acc = 0 ∨ 2 ^ (F.mw + F.binade q i acc) ≤ q) := by
  intro i
  induction i with
  | zero =>
    intro acc h1 h2
    simpa [binade] using And.intro h2 h1
  | succ i ih =>
    intro acc h1 h2
    unfold binade
    split
    · rename_i hle
      apply ih
      · right
        rw [← Nat.add_assoc]; exact hle
      · have : F.mw + (acc + 2 ^ i) + 2 ^ i = F.mw + acc + 2 ^ (i + 1) := by
          rw [Nat.pow_succ]; omega
        rw [this]; exact h2
    · rename_i hle
      exact ih acc h1 (Nat.lt_of_not_le hle)

theorem mag_lt (F : Fmt) (E m : Nat) (hm : m < 2 ^ F.mw) : F.mag E m < 2 ^ (F.mw + E) := by
  unfold mag
  split
  · exact Nat.lt_of_lt_of_le hm (Nat.pow_le_pow_right (by decide) (Nat.le_add_right _ _))
  · rename_i hE
    have h1 : F.mw + E = (F.mw + 1) + (E - 1) := by omega
    rw [h1, Nat.pow_add]
    apply Nat.mul_lt_mul_of_lt_of_le _ (Nat.le_refl _) (pow_pos2 _)
    rw [Nat.pow_succ]; omega

theorem le_mag (F : Fmt) (E m : Nat) (hE : E ≠ 0) : 2 ^ (F.mw + (E - 1)) ≤ F.mag E m := by
  unfold mag
  rw [if_neg hE, Nat.pow_add]
  exact Nat.mul_le_mul_right _ (Nat.le_add_right _ _)

/-- The binade of a field pair is its exponent field less one. -/
theorem binade_mag (F : Fmt) (E m : Nat) (hm : m < 2 ^ F.mw) (hE : E < 2 ^ F.ew) :
    F.binade (F.mag E m) F.ew 0 = E - 1 := by
  have hlt := mag_lt F E m hm
  have hs := binade_spec F (F.mag E m) F.ew 0 (Or.inl rfl)
    (Nat.lt_of_lt_of_le hlt (Nat.pow_le_pow_right (by decide) (by omega)))
  obtain ⟨h1, h2⟩ := hs
  generalize F.binade (F.mag E m) F.ew 0 = r at h1 h2
  by_cases hE0 : E = 0
  · subst hE0
    rcases h2 with h2 | h2
    · omega
    · exfalso
      have : F.mag 0 m < 2 ^ (F.mw + r) :=
        Nat.lt_of_lt_of_le (by simpa [mag] using hm)
          (Nat.pow_le_pow_right (by decide) (Nat.le_add_right _ _))
      omega
  · have h3 := le_mag F E m hE0
    have h4 : F.mw + (E - 1) < F.mw + r + 1 :=
      (Nat.pow_lt_pow_iff_right (by decide)).1 (Nat.lt_of_le_of_lt h3 h1)
    rcases h2 with h2 | h2
    · omega
    · have h5 : F.mw + r < F.mw + E :=
        (Nat.pow_lt_pow_iff_right (by decide)).1 (Nat.lt_of_le_of_lt h2 hlt)
      omega

theorem mag_eq_mul (F : Fmt) (E m : Nat) :
    F.mag E m = (if E = 0 then m else 2 ^ F.mw + m) * 2 ^ (E - 1) := by
  unfold mag
  split
  · rename_i h; subst h; simp
  · rfl

/-- Rounding an exactly representable magnitude returns its own fields. -/
theorem roundNE_mag (F : Fmt) (s : Bool) (E m B : Nat) (hm : m < 2 ^ F.mw)
    (hE : E < F.expAll) (hB : 0 < B) :
    F.roundNE s (F.mag E m * B) B = F.signBits s + (E * 2 ^ F.mw + m) := by
  have hE2 : E < 2 ^ F.ew := by unfold expAll at hE; omega
  unfold roundNE
  simp only
  rw [Nat.mul_div_cancel _ hB, binade_mag F E m hm hE2]
  have hd : 0 < B * 2 ^ (E - 1) := Nat.mul_pos hB (pow_pos2 _)
  have hA : F.mag E m * B = (if E = 0 then m else 2 ^ F.mw + m) * (B * 2 ^ (E - 1)) := by
    rw [mag_eq_mul]; ring
  rw [hA, Nat.mul_mod_left, Nat.mul_div_cancel _ hd]
  have hcond : ¬ (B * 2 ^ (E - 1) < 2 * 0 ∨
      (2 * 0 = B * 2 ^ (E - 1) ∧ (if E = 0 then m else 2 ^ F.mw + m) % 2 = 1)) := by
    omega
  rw [if_neg hcond]
  have hk : (E - 1) * 2 ^ F.mw + (if E = 0 then m else 2 ^ F.mw + m) = E * 2 ^ F.mw + m := by
    by_cases h0 : E = 0
    · subst h0; simp
    · rw [if_neg h0]
      obtain ⟨e, rfl⟩ : ∃ e, E = e + 1 := ⟨E - 1, by omega⟩
      simp only [Nat.add_sub_cancel]
      ring
  rw [hk, Nat.min_eq_left]
  have : (E + 1) * 2 ^ F.mw ≤ F.expAll * 2 ^ F.mw := Nat.mul_le_mul_right _ hE
  have h2 : E * 2 ^ F.mw + m < (E + 1) * 2 ^ F.mw := by
    rw [Nat.add_mul, Nat.one_mul]; omega
  omega


theorem expo_lt_of_isfinite (F : Fmt) (b : Nat) (h : F.isfinite b = true) :
    F.expo b < F.expAll := by
  have h1 := expo_lt F b
  have h2 : F.expo b ≠ F.expAll := by simpa [isfinite] using h
  unfold expAll at *
  omega

theorem rep_scaled (F : Fmt) (b : Nat) (h : F.isfinite b = true) : F.Rep (F.scaled b) :=
  ⟨F.expo b, F.mant b, mant_lt F b, expo_lt_of_isfinite F b h, rfl⟩

/-- A multiple of `2^c` below `2^(mw+c+1)` and below the overflow threshold is
representable. -/
theorem rep_of_dvd (F : Fmt) (hpos : 0 < F.expAll) (M c : Nat) (hdvd : 2 ^ c ∣ M)
    (h1 : M < 2 ^ (F.mw + c + 1)) (h2 : M < 2 ^ (F.mw + (F.expAll - 1))) : F.Rep M := by
  by_cases hM : M < 2 ^ F.mw
  · exact ⟨0, M, hM, hpos, by simp [mag]⟩
  · have hM0 : M ≠ 0 := by
      have := pow_pos2 F.mw
      omega
    have hL1 : 2 ^ M.log2 ≤ M := Nat.log2_self_le hM0
    have hL2 : M < 2 ^ (M.log2 + 1) := Nat.lt_log2_self
    have hmwL : F.mw ≤ M.log2 := by
      have : F.mw < M.log2 + 1 :=
        (Nat.pow_lt_pow_iff_right (by decide)).1 (Nat.lt_of_le_of_lt (Nat.le_of_not_lt hM) hL2)
      omega
    obtain ⟨j, hj⟩ : ∃ j, M.log2 = F.mw + j := ⟨M.log2 - F.mw, by omega⟩
    rw [hj] at hL1 hL2
    have hjc : j ≤ c := by
      have : F.mw + j < F.mw + c + 1 :=
        (Nat.pow_lt_pow_iff_right (by decide)).1 (Nat.lt_of_le_of_lt hL1 h1)
      omega
    have hjE : j + 1 < F.expAll := by
      have : F.mw + j < F.mw + (F.expAll - 1) :=
        (Nat.pow_lt_pow_iff_right (by decide)).1 (Nat.lt_of_le_of_lt hL1 h2)
      omega
    obtain ⟨n, hn⟩ : 2 ^ j ∣ M := Nat.dvd_trans (Nat.pow_dvd_pow 2 hjc) hdvd
    have hn1 : 2 ^ F.mw ≤ n := by
      rw [hn, Nat.pow_add, Nat.mul_comm (2 ^ j)] at hL1
      exact Nat.le_of_mul_le_mul_right hL1 (pow_pos2 j)
    have hn2 : n < 2 ^ (F.mw + 1) := by
      have h3 : F.mw + j + 1 = (F.mw + 1) + j := by omega
      rw [hn, h3, Nat.pow_add, Nat.mul_comm (2 ^ j)] at hL2
      exact Nat.lt_of_mul_lt_mul_right hL2
    refine ⟨j + 1, n - 2 ^ F.mw, ?_, hjE, ?_⟩
    · rw [Nat.pow_succ] at hn2; omega
    · unfold mag
      rw [if_neg (Nat.succ_ne_zero j), Nat.add_sub_cancel, Nat.add_sub_cancel' hn1, hn,
        Nat.mul_comm]

/-- What rounding an exactly representable magnitude returns. -/
theorem roundNE_rep (F : Fmt) (s : Bool) (M B : Nat) (hM : F.Rep M) (hB : 0 < B) :
    F.sign (F.roundNE s (M * B) B) = s ∧ F.isfinite (F.roundNE s (M * B) B) = true ∧
      F.scaled (F.roundNE s (M * B) B) = M ∧
      F.roundNE s (M * B) B < 2 ^ (1 + F.ew + F.mw) := by
  obtain ⟨E, m, hm, hE, rfl⟩ := hM
  have hE2 : E < 2 ^ F.ew := by unfold expAll at hE; omega
  rw [roundNE_mag F s E m B hm hE hB]
  have hk : E * 2 ^ F.mw + m < 2 ^ (F.ew + F.mw) := by
    have h1 : (E + 1) * 2 ^ F.mw ≤ 2 ^ F.ew * 2 ^ F.mw := Nat.mul_le_mul_right _ hE2
    rw [Nat.pow_add]
    rw [Nat.add_mul, Nat.one_mul] at h1
    omega
  refine ⟨sign_signBits_add F s _ hk, ?_, ?_, ?_⟩
  · rw [isfinite_signBits_add]
    unfold isfinite
    rw [expo_mk F E m hm hE2]
    simpa using Nat.ne_of_lt hE
  · rw [scaled_signBits_add]
    unfold scaled
    rw [expo_mk F E m hm hE2, mant_mk F E m hm]
  · have h2 : F.signBits s ≤ 2 ^ (F.ew + F.mw) := by
      unfold signBits; split <;> simp
    have h3 : 2 ^ (1 + F.ew + F.mw) = 2 * 2 ^ (F.ew + F.mw) := by
      rw [Nat.add_assoc, Nat.add_comm 1, Nat.pow_succ, Nat.mul_comm]
    omega

/-- Rounding the magnitude of a finite pattern gives the pattern back. -/
theorem roundNE_scaled (F : Fmt) (s : Bool) (b B : Nat) (hb : F.isfinite b = true)
    (hB : 0 < B) :
    F.roundNE s (F.scaled b * B) B = F.signBits s + b % 2 ^ (F.ew + F.mw) := by
  unfold scaled
  rw [roundNE_mag F s _ _ B (mant_lt F b) (expo_lt_of_isfinite F b hb) hB, mod_eq_expo_mant]

/-- An integral magnitude next to a representable one is representable. -/
theorem rep_integral (F : Fmt) (hV : F.Valid) (N M : Nat) (hN : F.Rep N)
    (hdvd : 2 ^ F.scale ∣ M) (hlt : M < N + 2 ^ F.scale)
    (hfix : 2 ^ F.scale ∣ N → M = N) : F.Rep M := by
  obtain ⟨hS0, hS⟩ := hV
  by_cases hu : 2 ^ F.scale ∣ N
  · rw [hfix hu]; exact hN
  · obtain ⟨E, m, hm, hE, hmag⟩ := hN
    have hES : E ≤ F.scale := by
      by_contra hcon
      apply hu
      rw [← hmag, mag_eq_mul]
      exact Dvd.dvd.mul_left (Nat.pow_dvd_pow 2 (by omega)) _
    have hNlt : N < 2 ^ (F.mw + F.scale) := by
      rw [← hmag]
      exact Nat.lt_of_lt_of_le (mag_lt F E m hm) (Nat.pow_le_pow_right (by decide) (by omega))
    obtain ⟨a, ha⟩ := hdvd
    have hMle : M ≤ 2 ^ (F.mw + F.scale) := by
      rw [Nat.pow_add, ha, Nat.mul_comm (2 ^ F.scale)]
      apply Nat.mul_le_mul_right
      have h3 : a * 2 ^ F.scale < (2 ^ F.mw + 1) * 2 ^ F.scale := by
        rw [Nat.add_mul, Nat.one_mul, ← Nat.pow_add, Nat.mul_comm, ← ha]
        omega
      have := Nat.lt_of_mul_lt_mul_right h3
      omega
    apply rep_of_dvd F (by omega) M F.scale ⟨a, ha⟩
    · exact Nat.lt_of_le_of_lt hMle (Nat.pow_lt_pow_right (by decide) (by omega))
    · exact Nat.lt_of_le_of_lt hMle (Nat.pow_lt_pow_right (by decide) (by omega))

theorem downMag_dvd (F : Fmt) (N : Nat) : 2 ^ F.scale ∣ F.downMag N := Nat.dvd_mul_left _ _

theorem downMag_le (F : Fmt) (N : Nat) : F.downMag N ≤ N := Nat.div_mul_le_self _ _

theorem lt_downMag_add (F : Fmt) (N : Nat) : N < F.downMag N + 2 ^ F.scale :=
  Nat.lt_div_mul_add (pow_pos2 _)

theorem downMag_fix (F : Fmt) (N : Nat) (h : 2 ^ F.scale ∣ N) : F.downMag N = N :=
  Nat.div_mul_cancel h

theorem upMag_dvd (F : Fmt) (N : Nat) : 2 ^ F.scale ∣ F.upMag N := by
  unfold upMag
  split
  · rename_i h; exact Nat.dvd_of_mod_eq_zero h
  · exact Nat.dvd_mul_left _ _

theorem upMag_fix (F : Fmt) (N : Nat) (h : 2 ^ F.scale ∣ N) : F.upMag N = N := by
  unfold upMag
  rw [if_pos (Nat.mod_eq_zero_of_dvd h)]

theorem le_upMag (F : Fmt) (N : Nat) : N ≤ F.upMag N := by
  unfold upMag
  split
  · exact Nat.le_refl _
  · have := lt_downMag_add F N
    unfold downMag at this
    rw [Nat.add_mul, Nat.one_mul]; omega

theorem upMag_lt (F : Fmt) (N : Nat) : F.upMag N < N + 2 ^ F.scale := by
  have hu := pow_pos2 F.scale
  unfold upMag
  split
  · omega
  · have := Nat.div_add_mod N (2 ^ F.scale)
    rw [Nat.add_mul, Nat.one_mul, Nat.mul_comm]; omega

theorem rep_floorMag (F : Fmt) (hV : F.Valid) (s : Bool) (N : Nat) (hN : F.Rep N) :
    F.Rep (F.floorMag s N) := by
  have hu := pow_pos2 F.scale
  unfold floorMag
  cases s
  · simp only [Bool.false_eq_true, if_false]
    apply rep_integral F hV N _ hN (downMag_dvd F N)
    · have := downMag_le F N; omega
    · exact downMag_fix F N
  · simp only [if_true]
    exact rep_integral F hV N _ hN (upMag_dvd F N) (upMag_lt F N) (upMag_fix F N)

theorem rep_ceilMag (F : Fmt) (hV : F.Valid) (s : Bool) (N : Nat) (hN : F.Rep N) :
    F.Rep (F.ceilMag s N) := by
  have h := rep_floorMag F hV (!s) N hN
  cases s <;> simpa [floorMag, ceilMag] using h

theorem rep_roundMag (F : Fmt) (hV : F.Valid) (N : Nat) (hN : F.Rep N) :
    F.Rep (F.roundMag N) := by
  have hu := pow_pos2 F.scale
  have hh : 2 ^ (F.scale - 1) < 2 ^ F.scale := Nat.pow_lt_pow_right (by decide) (by have := hV.1; omega)
  unfold roundMag
  apply rep_integral F hV N _ hN (Nat.dvd_mul_left _ _)
  · have := Nat.div_mul_le_self (N + 2 ^ (F.scale - 1)) (2 ^ F.scale); omega
  · rintro ⟨a, rfl⟩
    rw [Nat.add_comm, Nat.add_mul_div_left _ _ hu, Nat.div_eq_of_lt hh, Nat.zero_add,
      Nat.mul_comm]


theorem roundNE_rep_eq (F : Fmt) (s : Bool) (M B B' : Nat) (hM : F.Rep M) (hB : 0 < B)
    (hB' : 0 < B') : F.roundNE s (M * B) B = F.roundNE s (M * B') B' := by
  obtain ⟨E, m, hm, hE, rfl⟩ := hM
  rw [roundNE_mag F s E m B hm hE hB, roundNE_mag F s E m B' hm hE hB']

theorem roundNE_rep_one (F : Fmt) (s : Bool) (M : Nat) (hM : F.Rep M) :
    F.sign (F.roundNE s M 1) = s ∧ F.isfinite (F.roundNE s M 1) = true ∧
      F.scaled (F.roundNE s M 1) = M := by
  have h := roundNE_rep F s M 1 hM Nat.one_pos
  rw [Nat.mul_one] at h
  exact ⟨h.1, h.2.1, h.2.2.1⟩

/-- Fields of `floor` at a finite operand. -/
theorem floor_fields (F : Fmt) (hV : F.Valid) (b : Nat) (hb : F.isfinite b = true) :
    F.sign (F.floor b) = F.sign b ∧ F.isfinite (F.floor b) = true ∧
      F.scaled (F.floor b) = F.floorMag (F.sign b) (F.scaled b) := by
  unfold floor
  rw [if_pos hb]
  exact roundNE_rep_one F _ _ (rep_floorMag F hV _ _ (rep_scaled F b hb))

/-- Fields of `ceil` at a finite operand. -/
theorem ceil_fields (F : Fmt) (hV : F.Valid) (b : Nat) (hb : F.isfinite b = true) :
    F.sign (F.ceil b) = F.sign b ∧ F.isfinite (F.ceil b) = true ∧
      F.scaled (F.ceil b) = F.ceilMag (F.sign b) (F.scaled b) := by
  unfold ceil
  rw [if_pos hb]
  exact roundNE_rep_one F _ _ (rep_ceilMag F hV _ _ (rep_scaled F b hb))

/-- Fields of `round` at a finite operand. -/
theorem round_fields (F : Fmt) (hV : F.Valid) (b : Nat) (hb : F.isfinite b = true) :
    F.sign (F.round b) = F.sign b ∧ F.isfinite (F.round b) = true ∧
      F.scaled (F.round b) = F.roundMag (F.scaled b) := by
  unfold round
  rw [if_pos hb]
  exact roundNE_rep_one F _ _ (rep_roundMag F hV _ (rep_scaled F b hb))

theorem cast_pow_pos (n : Nat) : (0 : ℚ) < 2 ^ n := by positivity

theorem floor_cast_div (N u : Nat) : ⌊(N : ℚ) / (u : ℚ)⌋ = ((N / u : ℕ) : ℤ) := by
  rw [Rat.floor_natCast_div_natCast]
  norm_cast

theorem downMag_cast (F : Fmt) (N : Nat) :
    ((F.downMag N : ℕ) : ℚ) / 2 ^ F.scale = ((⌊(N : ℚ) / 2 ^ F.scale⌋ : ℤ) : ℚ) := by
  have hu := cast_pow_pos F.scale
  have hfl : ⌊(N : ℚ) / 2 ^ F.scale⌋ = ((N / 2 ^ F.scale : ℕ) : ℤ) := by
    have h := floor_cast_div N (2 ^ F.scale)
    rw [Nat.cast_pow] at h
    exact_mod_cast h
  rw [hfl, Int.cast_natCast]
  unfold downMag
  rw [Nat.cast_mul, Nat.cast_pow, Nat.cast_ofNat]
  field_simp

theorem upMag_cast (F : Fmt) (N : Nat) :
    ((F.upMag N : ℕ) : ℚ) / 2 ^ F.scale = ((⌈(N : ℚ) / 2 ^ F.scale⌉ : ℤ) : ℚ) := by
  have hu := cast_pow_pos F.scale
  obtain ⟨a, ha⟩ := upMag_dvd F N
  have h1 : ((F.upMag N : ℕ) : ℚ) = (a : ℚ) * 2 ^ F.scale := by
    rw [ha]; push_cast; ring
  have h2 : (N : ℚ) ≤ (a : ℚ) * 2 ^ F.scale := by
    rw [← h1]; exact_mod_cast le_upMag F N
  have h3 : (a : ℚ) * 2 ^ F.scale < (N : ℚ) + 2 ^ F.scale := by
    rw [← h1]; exact_mod_cast upMag_lt F N
  have h4 : ⌈(N : ℚ) / 2 ^ F.scale⌉ = (a : ℤ) := by
    rw [Int.ceil_eq_iff]
    constructor
    · rw [lt_div_iff₀ hu]
      push_cast
      linarith
    · rw [div_le_iff₀ hu]
      exact_mod_cast h2
  rw [h4, h1]
  field_simp

/-- The value of `floor b` is the integer floor of the value of `b`. -/
theorem toRat_floor (F : Fmt) (hV : F.Valid) (b : Nat) (hb : F.isfinite b = true) :
    F.toRat (F.floor b) = ((⌊F.toRat b⌋ : ℤ) : ℚ) := by
  obtain ⟨h1, -, h3⟩ := floor_fields F hV b hb
  unfold toRat
  rw [h1, h3]
  unfold floorMag
  cases F.sign b
  · simp only [Bool.false_eq_true, if_false, one_mul]
    exact downMag_cast F _
  · simp only [if_true]
    rw [neg_one_mul, neg_div, neg_one_mul, neg_div, Int.floor_neg, upMag_cast]
    push_cast; rfl

/-- The value of `ceil b` is the integer ceiling of the value of `b`. -/
theorem toRat_ceil (F : Fmt) (hV : F.Valid) (b : Nat) (hb : F.isfinite b = true) :
    F.toRat (F.ceil b) = ((⌈F.toRat b⌉ : ℤ) : ℚ) := by
  obtain ⟨h1, -, h3⟩ := ceil_fields F hV b hb
  unfold toRat
  rw [h1, h3]
  unfold ceilMag
  cases F.sign b
  · simp only [Bool.false_eq_true, if_false, one_mul]
    exact upMag_cast F _
  · simp only [if_true]
    rw [neg_one_mul, neg_div, neg_one_mul, neg_div, Int.ceil_neg, downMag_cast]
    push_cast; rfl

theorem roundMag_dvd (F : Fmt) (N : Nat) : 2 ^ F.scale ∣ F.roundMag N := Nat.dvd_mul_left _ _

theorem roundMag_le (F : Fmt) (N : Nat) : F.roundMag N ≤ N + 2 ^ (F.scale - 1) :=
  Nat.div_mul_le_self _ _

theorem le_roundMag (F : Fmt) (h0 : 0 < F.scale) (N : Nat) :
    N ≤ F.roundMag N + 2 ^ (F.scale - 1) := by
  have h : N + 2 ^ (F.scale - 1) < (N + 2 ^ (F.scale - 1)) / 2 ^ F.scale * 2 ^ F.scale
      + 2 ^ F.scale := Nat.lt_div_mul_add (pow_pos2 F.scale)
  have h2 : 2 ^ F.scale = 2 * 2 ^ (F.scale - 1) := by
    rw [← Nat.pow_succ']; congr 1; omega
  unfold roundMag
  omega

/-- The value of `round b` is an integer within one half of the value of `b`. -/
theorem toRat_round (F : Fmt) (hV : F.Valid) (b : Nat) (hb : F.isfinite b = true) :
    (∃ z : ℤ, F.toRat (F.round b) = (z : ℚ)) ∧ |F.toRat (F.round b) - F.toRat b| ≤ 1 / 2 := by
  obtain ⟨h1, -, h3⟩ := round_fields F hV b hb
  have hu := cast_pow_pos F.scale
  obtain ⟨a, ha⟩ := roundMag_dvd F (F.scaled b)
  have hpow : (2 : ℚ) ^ F.scale = 2 * 2 ^ (F.scale - 1) := by
    rw [← pow_succ']; congr 1; have := hV.1; omega
  have hle : ((F.roundMag (F.scaled b) : ℕ) : ℚ) ≤ (F.scaled b : ℚ) + 2 ^ (F.scale - 1) := by
    exact_mod_cast roundMag_le F (F.scaled b)
  have hge : ((F.scaled b : ℕ) : ℚ) ≤ (F.roundMag (F.scaled b) : ℚ) + 2 ^ (F.scale - 1) := by
    exact_mod_cast le_roundMag F hV.1 (F.scaled b)
  have hval : ((F.roundMag (F.scaled b) : ℕ) : ℚ) / 2 ^ F.scale = (a : ℚ) := by
    rw [ha]; push_cast; field_simp
  have hdiff : |((F.roundMag (F.scaled b) : ℕ) : ℚ) / 2 ^ F.scale
      - (F.scaled b : ℚ) / 2 ^ F.scale| ≤ 1 / 2 := by
    rw [← sub_div, abs_div, abs_of_pos hu, div_le_iff₀ hu, abs_le]
    constructor <;> linarith
  unfold toRat
  rw [h1, h3]
  cases F.sign b
  · simp only [Bool.false_eq_true, if_false, one_mul]
    exact ⟨⟨a, by rw [hval]; push_cast; rfl⟩, hdiff⟩
  · simp only [if_true]
    refine ⟨⟨-a, by rw [neg_one_mul, neg_div, hval]; push_cast; rfl⟩, ?_⟩
    rw [neg_one_mul, neg_div, neg_one_mul, neg_div, ← neg_sub', abs_neg]
    exact hdiff


theorem isnan_false_of_isfinite (F : Fmt) (b : Nat) (h : F.isfinite b = true) :
    F.isnan b = false := by
  unfold isfinite at h
  unfold isnan
  simp only [bne_iff_ne, ne_eq] at h
  simp [h]

theorem isinf_false_of_isfinite (F : Fmt) (b : Nat) (h : F.isfinite b = true) :
    F.isinf b = false := by
  unfold isfinite at h
  unfold isinf
  simp only [bne_iff_ne, ne_eq] at h
  simp [h]

theorem isfinite_of_not_nan_inf (F : Fmt) (b : Nat) (h1 : F.isnan b = false)
    (h2 : F.isinf b = false) : F.isfinite b = true := by
  unfold isfinite
  unfold isnan at h1
  unfold isinf at h2
  by_cases he : F.expo b = F.expAll
  · by_cases hm : F.mant b = 0
    · simp [he, hm] at h2
    · simp [he, hm] at h1
  · simpa using he

theorem decode_of_isfinite (F : Fmt) (b : Nat) (h : F.isfinite b = true) :
    F.decode b = Val.fin (F.sign b) ((F.scaled b : ℚ) / 2 ^ F.scale) := by
  unfold decode
  rw [isnan_false_of_isfinite F b h, isinf_false_of_isfinite F b h]
  simp

theorem decode_of_isinf (F : Fmt) (b : Nat) (h : F.isinf b = true) :
    F.decode b = Val.inf (F.sign b) := by
  have hn : F.isnan b = false := by
    unfold isinf at h
    unfold isnan
    simp only [Bool.and_eq_true, beq_iff_eq] at h
    simp [h.2]
  unfold decode
  rw [hn, h]
  simp

theorem decode_eq_fin (F : Fmt) (b : Nat) (s : Bool) (q : ℚ) (h : F.decode b = Val.fin s q) :
    F.isfinite b = true ∧ F.sign b = s ∧ (F.scaled b : ℚ) / 2 ^ F.scale = q := by
  unfold decode at h
  by_cases h1 : F.isnan b = true
  · rw [if_pos h1] at h; exact absurd h (by simp)
  · rw [if_neg h1] at h
    by_cases h2 : F.isinf b = true
    · rw [if_pos h2] at h; exact absurd h (by simp)
    · rw [if_neg h2] at h
      injection h with h3 h4
      exact ⟨isfinite_of_not_nan_inf F b (by simpa using h1) (by simpa using h2), h3, h4⟩

theorem decode_eq_inf (F : Fmt) (b : Nat) (s : Bool) (h : F.decode b = Val.inf s) :
    F.isinf b = true ∧ F.sign b = s := by
  unfold decode at h
  by_cases h1 : F.isnan b = true
  · rw [if_pos h1] at h; exact absurd h (by simp)
  · rw [if_neg h1] at h
    by_cases h2 : F.isinf b = true
    · rw [if_pos h2] at h
      injection h with h3
      exact ⟨h2, h3⟩
    · rw [if_neg h2] at h; exact absurd h (by simp)

theorem decode_ne_nan (F : Fmt) (b : Nat) (h : F.isnan b = false) : F.decode b ≠ Val.nan := by
  unfold decode
  rw [h]
  simp only [Bool.false_eq_true, if_false]
  split <;> simp

/-- A pattern, cut to the width of the layout, is its sign bit plus its lower bits. -/
theorem mod_full (F : Fmt) (b : Nat) :
    b % 2 ^ (1 + F.ew + F.mw) = F.signBits (F.sign b) + b % 2 ^ (F.ew + F.mw) := by
  have h1 : 2 ^ (1 + F.ew + F.mw) = 2 ^ (F.ew + F.mw) * 2 := by
    rw [Nat.add_assoc, Nat.add_comm 1, Nat.pow_succ]
  rw [h1, Nat.mod_mul]
  unfold sign signBits
  have h2 := Nat.mod_two_eq_zero_or_one (b / 2 ^ (F.ew + F.mw))
  rcases h2 with h2 | h2
  · simp [h2]
  · simp [h2, Nat.add_comm]

theorem scaled_cross (N M a c : Nat) (h : (N : ℚ) / 2 ^ a = (M : ℚ) / 2 ^ c) :
    N * 2 ^ c = M * 2 ^ a := by
  rw [div_eq_div_iff (ne_of_gt (cast_pow_pos a)) (ne_of_gt (cast_pow_pos c))] at h
  exact_mod_cast h

/-- Conversion is exact on every value the target layout represents. -/
theorem convert_exact (F G : Fmt) (b g : Nat) (h : F.decode b = G.decode g)
    (hg : G.isnan g = false) : F.convert G b = g % 2 ^ (1 + G.ew + G.mw) := by
  by_cases hgi : G.isinf g = true
  · rw [decode_of_isinf G g hgi] at h
    obtain ⟨h1, h2⟩ := decode_eq_inf F b _ h
    have hbn : F.isnan b = false := by
      unfold isinf at h1
      unfold isnan
      simp only [Bool.and_eq_true, beq_iff_eq] at h1
      simp [h1.2]
    unfold convert
    rw [hbn, h1, h2, mod_full, mod_eq_expo_mant]
    unfold isinf at hgi
    simp only [Bool.and_eq_true, beq_iff_eq] at hgi
    rw [hgi.1, hgi.2]
    simp
  · have hgf := isfinite_of_not_nan_inf G g hg (by simpa using hgi)
    rw [decode_of_isfinite G g hgf] at h
    obtain ⟨h1, h2, h3⟩ := decode_eq_fin F b _ _ h
    unfold convert
    rw [isnan_false_of_isfinite F b h1, isinf_false_of_isfinite F b h1, h2,
      scaled_cross _ _ _ _ h3, roundNE_scaled G _ g _ hgf (pow_pos2 _), mod_full]
    simp

/-- Non-NaN patterns with the same decoded value agree on every bit of the layout. -/
theorem decode_inj (F : Fmt) (b g : Nat) (h : F.decode b = F.decode g)
    (hg : F.isnan g = false) : b % 2 ^ (1 + F.ew + F.mw) = g % 2 ^ (1 + F.ew + F.mw) := by
  have hb : F.isnan b = false := by
    by_contra hcon
    have : F.decode b = Val.nan := by
      unfold decode; rw [if_pos (by simpa using hcon)]
    exact decode_ne_nan F g hg (by rw [← h, this])
  rw [← convert_exact F F b g h hg, convert_exact F F b b rfl hb]

/-- A representable magnitude stays representable in a layout with at least the mantissa
width and exponent range. -/
theorem rep_widen (F G : Fmt) (hmw : F.mw ≤ G.mw) (hpos : 0 < G.expAll)
    (hrange : F.mw + F.expAll + (G.scale - F.scale) ≤ G.mw + G.expAll) (N : Nat)
    (hN : F.Rep N) : G.Rep (N * 2 ^ (G.scale - F.scale)) := by
  obtain ⟨E, m, hm, hE, rfl⟩ := hN
  have hlt := mag_lt F E m hm
  apply rep_of_dvd G hpos _ ((E - 1) + (G.scale - F.scale))
  · rw [mag_eq_mul, Nat.pow_add]
    exact Nat.mul_dvd_mul (Nat.dvd_mul_left _ _) (Nat.dvd_refl _)
  · have h1 : F.mag E m * 2 ^ (G.scale - F.scale) < 2 ^ (F.mw + E + (G.scale - F.scale)) := by
      rw [Nat.pow_add _ (F.mw + E)]
      exact Nat.mul_lt_mul_of_lt_of_le hlt (Nat.le_refl _) (pow_pos2 _)
    by_cases hE0 : E = 0
    · subst hE0
      have hlt0 : F.mag 0 m < 2 ^ F.mw := by simpa [mag] using hm
      have h2 : F.mag 0 m * 2 ^ (G.scale - F.scale) < 2 ^ (F.mw + (G.scale - F.scale)) := by
        rw [Nat.pow_add]
        exact Nat.mul_lt_mul_of_lt_of_le hlt0 (Nat.le_refl _) (pow_pos2 _)
      exact Nat.lt_of_lt_of_le h2 (Nat.pow_le_pow_right (by decide) (by omega))
    · exact Nat.lt_of_lt_of_le h1 (Nat.pow_le_pow_right (by decide) (by omega))
  · have h1 : F.mag E m * 2 ^ (G.scale - F.scale) < 2 ^ (F.mw + E + (G.scale - F.scale)) := by
      rw [Nat.pow_add _ (F.mw + E)]
      exact Nat.mul_lt_mul_of_lt_of_le hlt (Nat.le_refl _) (pow_pos2 _)
    exact Nat.lt_of_lt_of_le h1 (Nat.pow_le_pow_right (by decide) (by omega))

/-- Fields of a conversion whose result is representable in the target. -/
theorem convert_fields (F G : Fmt) (b M : Nat) (hb : F.isfinite b = true) (hM : G.Rep M)
    (hEq : F.scaled b * 2 ^ G.scale = M * 2 ^ F.scale) :
    G.sign (F.convert G b) = F.sign b ∧ G.isfinite (F.convert G b) = true ∧
      G.scaled (F.convert G b) = M ∧ F.convert G b = G.roundNE (F.sign b) M 1 := by
  unfold convert
  rw [isnan_false_of_isfinite F b hb, isinf_false_of_isfinite F b hb, hEq]
  simp only [Bool.false_eq_true, if_false]
  have h := roundNE_rep G (F.sign b) M (2 ^ F.scale) hM (pow_pos2 _)
  refine ⟨h.1, h.2.1, h.2.2.1, ?_⟩
  have h2 := roundNE_rep_eq G (F.sign b) M (2 ^ F.scale) 1 hM (pow_pos2 _) Nat.one_pos
  rw [Nat.mul_one] at h2
  exact h2

/-- Fields of a widening conversion of a finite pattern. -/
theorem convert_widen (F G : Fmt) (hmw : F.mw ≤ G.mw) (hsc : F.scale ≤ G.scale)
    (hpos : 0 < G.expAll)
    (hrange : F.mw + F.expAll + (G.scale - F.scale) ≤ G.mw + G.expAll) (b : Nat)
    (hb : F.isfinite b = true) :
    G.sign (F.convert G b) = F.sign b ∧ G.isfinite (F.convert G b) = true ∧
      G.scaled (F.convert G b) = F.scaled b * 2 ^ (G.scale - F.scale) ∧
      F.convert G b = G.roundNE (F.sign b) (F.scaled b * 2 ^ (G.scale - F.scale)) 1 := by
  apply convert_fields F G b _ hb (rep_widen F G hmw hpos hrange _ (rep_scaled F b hb))
  rw [Nat.mul_assoc, ← Nat.pow_add, Nat.sub_add_cancel hsc]


theorem roundNE_rep_one_lt (F : Fmt) (s : Bool) (M : Nat) (hM : F.Rep M) :
    F.roundNE s M 1 < 2 ^ (1 + F.ew + F.mw) := by
  have h := roundNE_rep F s M 1 hM Nat.one_pos
  rw [Nat.mul_one] at h
  exact h.2.2.2

theorem floor_lt (F : Fmt) (hV : F.Valid) (b : Nat) (hb : F.isfinite b = true) :
    F.floor b < 2 ^ (1 + F.ew + F.mw) := by
  unfold floor
  rw [if_pos hb]
  exact roundNE_rep_one_lt F _ _ (rep_floorMag F hV _ _ (rep_scaled F b hb))

theorem ceil_lt (F : Fmt) (hV : F.Valid) (b : Nat) (hb : F.isfinite b = true) :
    F.ceil b < 2 ^ (1 + F.ew + F.mw) := by
  unfold ceil
  rw [if_pos hb]
  exact roundNE_rep_one_lt F _ _ (rep_ceilMag F hV _ _ (rep_scaled F b hb))

theorem round_lt (F : Fmt) (hV : F.Valid) (b : Nat) (hb : F.isfinite b = true) :
    F.round b < 2 ^ (1 + F.ew + F.mw) := by
  unfold round
  rw [if_pos hb]
  exact roundNE_rep_one_lt F _ _ (rep_roundMag F hV _ (rep_scaled F b hb))

theorem downMag_scale (F G : Fmt) (hsc : F.scale ≤ G.scale) (N : Nat) :
    G.downMag (N * 2 ^ (G.scale - F.scale)) = F.downMag N * 2 ^ (G.scale - F.scale) := by
  have hG : 2 ^ G.scale = 2 ^ F.scale * 2 ^ (G.scale - F.scale) := by
    rw [← Nat.pow_add]; congr 1; omega
  unfold downMag
  rw [hG, Nat.mul_div_mul_right _ _ (pow_pos2 _), Nat.mul_assoc]

theorem upMag_scale (F G : Fmt) (hsc : F.scale ≤ G.scale) (N : Nat) :
    G.upMag (N * 2 ^ (G.scale - F.scale)) = F.upMag N * 2 ^ (G.scale - F.scale) := by
  have hG : 2 ^ G.scale = 2 ^ F.scale * 2 ^ (G.scale - F.scale) := by
    rw [← Nat.pow_add]; congr 1; omega
  have hk := pow_pos2 (G.scale - F.scale)
  unfold upMag
  rw [hG, Nat.mul_mod_mul_right, Nat.mul_div_mul_right _ _ hk]
  by_cases h0 : N % 2 ^ F.scale = 0
  · rw [if_pos h0, if_pos (by rw [h0, Nat.zero_mul])]
  · rw [if_neg h0, if_neg (Nat.mul_ne_zero h0 (Nat.ne_of_gt hk)), Nat.mul_assoc]

theorem floorMag_scale (F G : Fmt) (hsc : F.scale ≤ G.scale) (s : Bool) (N : Nat) :
    G.floorMag s (N * 2 ^ (G.scale - F.scale)) = F.floorMag s N * 2 ^ (G.scale - F.scale) := by
  unfold floorMag
  cases s
  · simpa using downMag_scale F G hsc N
  · simpa using upMag_scale F G hsc N

theorem ceilMag_scale (F G : Fmt) (hsc : F.scale ≤ G.scale) (s : Bool) (N : Nat) :
    G.ceilMag s (N * 2 ^ (G.scale - F.scale)) = F.ceilMag s N * 2 ^ (G.scale - F.scale) := by
  unfold ceilMag
  cases s
  · simpa using upMag_scale F G hsc N
  · simpa using downMag_scale F G hsc N

theorem roundMag_scale (F G : Fmt) (h0 : 0 < F.scale) (hsc : F.scale ≤ G.scale) (N : Nat) :
    G.roundMag (N * 2 ^ (G.scale - F.scale)) = F.roundMag N * 2 ^ (G.scale - F.scale) := by
  have hG : 2 ^ G.scale = 2 ^ F.scale * 2 ^ (G.scale - F.scale) := by
    rw [← Nat.pow_add]; congr 1; omega
  have hG1 : 2 ^ (G.scale - 1) = 2 ^ (F.scale - 1) * 2 ^ (G.scale - F.scale) := by
    rw [← Nat.pow_add]; congr 1; omega
  unfold roundMag
  rw [hG1, ← Nat.add_mul, hG, Nat.mul_div_mul_right _ _ (pow_pos2 _), Nat.mul_assoc]

/-- Two finite patterns of two layouts with the same decoded value: same sign, and the
magnitudes differ by the ratio of the units. -/
theorem fields_of_decode_eq (F G : Fmt) (hsc : F.scale ≤ G.scale) (b g : Nat)
    (hb : F.isfinite b = true) (h : G.decode g = F.decode b) :
    G.isfinite g = true ∧ G.sign g = F.sign b ∧
      G.scaled g = F.scaled b * 2 ^ (G.scale - F.scale) := by
  rw [decode_of_isfinite F b hb] at h
  obtain ⟨h1, h2, h3⟩ := decode_eq_fin G g _ _ h
  refine ⟨h1, h2, ?_⟩
  have h4 := scaled_cross _ _ _ _ h3
  have h5 : 2 ^ G.scale = 2 ^ (G.scale - F.scale) * 2 ^ F.scale := by
    rw [← Nat.pow_add]; congr 1; omega
  rw [h5, ← Nat.mul_assoc] at h4
  exact Nat.eq_of_mul_eq_mul_right (pow_pos2 _) h4

theorem decode_eq_of_fields (F G : Fmt) (hsc : F.scale ≤ G.scale) (b g : Nat)
    (hb : F.isfinite b = true) (hg : G.isfinite g = true) (hs : G.sign g = F.sign b)
    (hN : G.scaled g = F.scaled b * 2 ^ (G.scale - F.scale)) : G.decode g = F.decode b := by
  rw [decode_of_isfinite F b hb, decode_of_isfinite G g hg, hs, hN]
  congr 1
  rw [div_eq_div_iff (ne_of_gt (cast_pow_pos _)) (ne_of_gt (cast_pow_pos _))]
  have h5 : 2 ^ G.scale = 2 ^ (G.scale - F.scale) * 2 ^ F.scale := by
    rw [← Nat.pow_add]; congr 1; omega
  have h6 : ((2 : ℚ) ^ G.scale) = 2 ^ (G.scale - F.scale) * 2 ^ F.scale := by
    exact_mod_cast h5
  rw [h6]
  push_cast
  ring

/-- `floor` commutes with an exact change of layout. -/
theorem floor_transfer (F G : Fmt) (hF : F.Valid) (hG : G.Valid) (hsc : F.scale ≤ G.scale)
    (b g : Nat) (hb : F.isfinite b = true) (h : G.decode g = F.decode b) :
    G.decode (G.floor g) = F.decode (F.floor b) := by
  obtain ⟨h1, h2, h3⟩ := fields_of_decode_eq F G hsc b g hb h
  obtain ⟨f1, f2, f3⟩ := floor_fields F hF b hb
  obtain ⟨g1, g2, g3⟩ := floor_fields G hG g h1
  apply decode_eq_of_fields F G hsc _ _ f2 g2
  · rw [g1, f1, h2]
  · rw [g3, f3, h2, h3, floorMag_scale F G hsc]

/-- `ceil` commutes with an exact change of layout. -/
theorem ceil_transfer (F G : Fmt) (hF : F.Valid) (hG : G.Valid) (hsc : F.scale ≤ G.scale)
    (b g : Nat) (hb : F.isfinite b = true) (h : G.decode g = F.decode b) :
    G.decode (G.ceil g) = F.decode (F.ceil b) := by
  obtain ⟨h1, h2, h3⟩ := fields_of_decode_eq F G hsc b g hb h
  obtain ⟨f1, f2, f3⟩ := ceil_fields F hF b hb
  obtain ⟨g1, g2, g3⟩ := ceil_fields G hG g h1
  apply decode_eq_of_fields F G hsc _ _ f2 g2
  · rw [g1, f1, h2]
  · rw [g3, f3, h2, h3, ceilMag_scale F G hsc]

/-- `round` commutes with an exact change of layout. -/
theorem round_transfer (F G : Fmt) (hF : F.Valid) (hG : G.Valid) (hsc : F.scale ≤ G.scale)
    (b g : Nat) (hb : F.isfinite b = true) (h : G.decode g = F.decode b) :
    G.decode (G.round g) = F.decode (F.round b) := by
  obtain ⟨h1, h2, h3⟩ := fields_of_decode_eq F G hsc b g hb h
  obtain ⟨f1, f2, f3⟩ := round_fields F hF b hb
  obtain ⟨g1, g2, g3⟩ := round_fields G hG g h1
  apply decode_eq_of_fields F G hsc _ _ f2 g2
  · rw [g1, f1, h2]
  · rw [g3, f3, h3, roundMag_scale F G hF.1 hsc]

theorem expo_fabs (F : Fmt) (b : Nat) : F.expo (F.fabs b) = F.expo b := by
  have h := mod_full F b
  have h2 : F.expo (b % 2 ^ (1 + F.ew + F.mw)) = F.expo b := by
    unfold expo
    have h1 : 2 ^ (1 + F.ew + F.mw) = 2 ^ F.mw * 2 ^ (1 + F.ew) := by
      rw [← Nat.pow_add]; congr 1; omega
    rw [h1, Nat.mod_mul_right_div_self, Nat.mod_mod_of_dvd]
    exact Nat.pow_dvd_pow 2 (by omega)
  rw [h, expo_signBits_add] at h2
  exact h2

theorem mant_fabs (F : Fmt) (b : Nat) : F.mant (F.fabs b) = F.mant b := by
  unfold mant fabs
  exact Nat.mod_mod_of_dvd _ (Nat.pow_dvd_pow 2 (by omega))

theorem sign_fabs (F : Fmt) (b : Nat) : F.sign (F.fabs b) = false := by
  unfold sign fabs
  rw [Nat.div_eq_of_lt (Nat.mod_lt _ (pow_pos2 _))]
  rfl

/-- `fabs` takes the absolute value of the decoded value. -/
theorem decode_fabs (F : Fmt) (b : Nat) : F.decode (F.fabs b) = (F.decode b).abs := by
  unfold decode isnan isinf scaled
  rw [expo_fabs, mant_fabs, sign_fabs]
  split
  · rfl
  · split <;> rfl

end IEEE.Fmt

namespace IEEE

theorem valid_bf16 : bf16.Valid := by
  unfold Fmt.Valid Fmt.scale Fmt.bias Fmt.expAll bf16
  decide

theorem valid_f32 : f32.Valid := by
  unfold Fmt.Valid Fmt.scale Fmt.bias Fmt.expAll f32
  decide

theorem valid_f64 : f64.Valid := by
  unfold Fmt.Valid Fmt.scale Fmt.bias Fmt.expAll f64
  decide

theorem scale_bf16 : bf16.scale = 133 := by decide

theorem scale_f32 : f32.scale = 149 := by decide

theorem scale_f64 : f64.scale = 1074 := by decide

end IEEE

namespace paddle.platform

open IEEE

theorem expo_widen (a : bfloat16) : f32.expo (widen a) = bf16.expo a.x := by
  show a.x % 65536 * 65536 / 2 ^ 23 % 2 ^ 8 = a.x / 2 ^ 7 % 2 ^ 8
  omega

theorem mant_widen (a : bfloat16) : f32.mant (widen a) = bf16.mant a.x * 65536 := by
  show a.x % 65536 * 65536 % 2 ^ 23 = a.x % 2 ^ 7 * 65536
  omega

theorem sign_widen (a : bfloat16) : f32.sign (widen a) = bf16.sign (a.x % 65536) := by
  show (a.x % 65536 * 65536 / 2 ^ 31 % 2 == 1) = (a.x % 65536 / 2 ^ 15 % 2 == 1)
  congr 1
  omega

theorem sign_mod (x : Nat) (h : x < 65536) : bf16.sign (x % 65536) = bf16.sign x := by
  rw [Nat.mod_eq_of_lt h]

theorem scaled_widen (a : bfloat16) : f32.scaled (widen a) = bf16.scaled a.x * 65536 := by
  unfold Fmt.scaled
  rw [expo_widen, mant_widen]
  unfold Fmt.mag f32 bf16
  simp only
  split
  · rfl
  · ring

/-- Widening by placing the bits in the upper half is exact. -/
theorem decode_widen (a : bfloat16) (ha : a.x < 65536) :
    f32.decode (widen a) = bf16.decode a.x := by
  have hs := sign_widen a
  rw [sign_mod a.x ha] at hs
  have he : f32.expAll = bf16.expAll := by decide
  have hm : (f32.mant (widen a) == 0) = (bf16.mant a.x == 0) := by
    rw [mant_widen]
    by_cases h : bf16.mant a.x = 0
    · simp [h]
    · simp [h]
  unfold Fmt.decode Fmt.isnan Fmt.isinf
  rw [expo_widen, he, hs, scaled_widen, scale_f32, scale_bf16]
  have hq : (((bf16.scaled a.x * 65536 : ℕ) : ℚ) / 2 ^ 149) = (bf16.scaled a.x : ℚ) / 2 ^ 133 := by
    rw [div_eq_div_iff (by positivity) (by positivity)]
    push_cast
    ring
  rw [hq]
  simp only [bne, hm]

theorem widenExact_truncating : truncating.WidenExact :=
  fun a ha _ => decode_widen a ha

theorem widenExact_rounding : rounding.WidenExact :=
  fun a ha _ => decode_widen a ha

theorem narrowExact_truncating : truncating.NarrowExact := by
  intro f a ha hn h
  rw [← decode_widen a ha] at h
  have hn2 : f32.isnan (widen a) = false := by
    by_contra hcon
    have h1 : f32.decode (widen a) = Val.nan := by
      unfold Fmt.decode; rw [if_pos (by simpa using hcon)]
    rw [decode_widen a ha] at h1
    exact Fmt.decode_ne_nan bf16 a.x hn h1
  have h2 := Fmt.decode_inj f32 f (widen a) h hn2
  show truncate f = a
  unfold truncate
  cases a with
  | mk x =>
    congr 1
    unfold widen f32 at h2
    simp only at h2 ha
    omega

theorem narrowExact_rounding : rounding.NarrowExact := by
  intro f a ha hn h
  have h2 := Fmt.convert_exact f32 bf16 f a.x h hn
  show nearest f = a
  unfold nearest
  cases a with
  | mk x =>
    congr 1
    rw [h2]
    unfold bf16
    simp only at ha ⊢
    omega

end paddle.platform

namespace IEEE.Fmt

theorem toRat_of_fields (F : Fmt) (b : Nat) (s : Bool) (N : Nat) (hs : F.sign b = s)
    (hN : F.scaled b = N) :
    F.toRat b = (if s then -1 else 1) * (N : ℚ) / 2 ^ F.scale := by
  unfold toRat
  rw [hs, hN]

theorem toRat_of_integral (F : Fmt) (b : Nat) (s : Bool) (n : Nat) (hs : F.sign b = s)
    (hN : F.scaled b = n * 2 ^ F.scale) : F.toRat b = (if s then -1 else 1) * (n : ℚ) := by
  unfold toRat
  rw [hs, hN, Nat.cast_mul, Nat.cast_pow, Nat.cast_ofNat]
  have h := ne_of_gt (cast_pow_pos F.scale)
  field_simp

/-- Widening conversions are exact on every non-NaN pattern. -/
theorem decode_convert_widen (F G : Fmt) (hmw : F.mw ≤ G.mw) (hsc : F.scale ≤ G.scale)
    (hpos : 0 < G.expAll)
    (hrange : F.mw + F.expAll + (G.scale - F.scale) ≤ G.mw + G.expAll) (b : Nat)
    (hn : F.isnan b = false) : G.decode (F.convert G b) = F.decode b := by
  by_cases hi : F.isinf b = true
  · rw [decode_of_isinf F b hi]
    unfold convert
    rw [hn, hi]
    simp only [Bool.false_eq_true, if_false, if_true]
    have hE : G.expAll < 2 ^ G.ew := by
      have := pow_pos2 G.ew
      unfold expAll; omega
    have hk : G.expAll * 2 ^ G.mw < 2 ^ (G.ew + G.mw) := by
      rw [Nat.pow_add]
      exact Nat.mul_lt_mul_of_lt_of_le hE (Nat.le_refl _) (pow_pos2 _)
    have h1 : G.isinf (G.signBits (F.sign b) + G.expAll * 2 ^ G.mw) = true := by
      rw [isinf_signBits_add]
      unfold isinf
      have e1 := expo_mk G G.expAll 0 (pow_pos2 _) hE
      have e2 := mant_mk G G.expAll 0 (pow_pos2 _)
      rw [Nat.add_zero] at e1 e2
      rw [e1, e2]
      simp
    rw [decode_of_isinf G _ h1, sign_signBits_add G _ _ hk]
  · have hb := isfinite_of_not_nan_inf F b hn (by simpa using hi)
    obtain ⟨h1, h2, h3, -⟩ := convert_widen F G hmw hsc hpos hrange b hb
    exact decode_eq_of_fields F G hsc b _ hb h2 h1 h3

end IEEE.Fmt

namespace IEEE

/-- Promotion `float → double` is exact on every non-NaN pattern. -/
theorem decode_float_to_double (f : Nat) (hn : f32.isnan f = false) :
    f64.decode (float_to_double f) = f32.decode f :=
  Fmt.decode_convert_widen f32 f64 (by decide) (by decide) (by decide) (by decide) f hn

/-- The double-precision `floor` of a promoted finite `float`, narrowed back, is `floorf`. -/
theorem double_floor_eq_floorf (f : Nat) (hf : f32.isfinite f = true) :
    double_to_float (floor (float_to_double f)) = floorf f := by
  have h1 := decode_float_to_double f (Fmt.isnan_false_of_isfinite f32 f hf)
  have h2 := Fmt.floor_transfer f32 f64 valid_f32 valid_f64 (by decide) f _ hf h1
  obtain ⟨-, g2, -⟩ := Fmt.floor_fields f32 valid_f32 f hf
  have h3 := Fmt.convert_exact f64 f32 _ _ h2 (Fmt.isnan_false_of_isfinite f32 _ g2)
  have h4 := Fmt.floor_lt f32 valid_f32 f hf
  unfold double_to_float floor floorf
  rw [h3]
  exact Nat.mod_eq_of_lt h4

/-- Taking `fabs` in double precision and narrowing back is `fabsf`. -/
theorem double_fabs_eq_fabsf (f : Nat) (hn : f32.isnan f = false) :
    double_to_float (fabs (float_to_double f)) = fabsf f := by
  have h1 := decode_float_to_double f hn
  have h2 : f64.decode (f64.fabs (float_to_double f)) = f32.decode (f32.fabs f) := by
    rw [Fmt.decode_fabs, Fmt.decode_fabs, h1]
  have hn2 : f32.isnan (f32.fabs f) = false := by
    unfold Fmt.isnan at hn ⊢
    rw [Fmt.expo_fabs, Fmt.mant_fabs]
    exact hn
  have h3 := Fmt.convert_exact f64 f32 _ _ h2 hn2
  unfold double_to_float fabs fabsf
  rw [h3]
  apply Nat.mod_eq_of_lt
  unfold Fmt.fabs
  exact Nat.lt_of_lt_of_le (Nat.mod_lt _ (Fmt.pow_pos2 _))
    (Nat.pow_le_pow_right (by decide) (by omega))

end IEEE

namespace Eigen.numext

open IEEE paddle.platform

theorem finite_of_isfinite (x : bfloat16) (h : paddle.platform.isfinite x = true) :
    bf16.isfinite x.x = true ∧ paddle.platform.isnan x = false := by
  unfold paddle.platform.isfinite paddle.platform.isnan paddle.platform.isinf at *
  simp only [Bool.and_eq_true, Bool.not_eq_true'] at h
  exact ⟨Fmt.isfinite_of_not_nan_inf bf16 x.x h.1 h.2, h.1⟩

/-- The overlay `floor` is the floor of the bfloat16 layout itself. -/
theorem floor_bfloat16_eq (C : Conversion) (hW : C.WidenExact) (hN : C.NarrowExact)
    (x : bfloat16) (hx : x.x < 65536) (hfin : paddle.platform.isfinite x = true) :
    floor_bfloat16 C x = ⟨bf16.floor x.x⟩ := by
  obtain ⟨hb, hn⟩ := finite_of_isfinite x hfin
  have h1 := hW x hx hn
  have h2 := Fmt.floor_transfer bf16 f32 valid_bf16 valid_f32 (by decide) x.x _ hb h1
  obtain ⟨-, g2, -⟩ := Fmt.floor_fields bf16 valid_bf16 x.x hb
  exact hN _ ⟨bf16.floor x.x⟩ (Fmt.floor_lt bf16 valid_bf16 x.x hb)
    (Fmt.isnan_false_of_isfinite bf16 _ g2) h2

/-- The overlay `ceil` is the ceiling of the bfloat16 layout itself. -/
theorem ceil_bfloat16_eq (C : Conversion) (hW : C.WidenExact) (hN : C.NarrowExact)
    (x : bfloat16) (hx : x.x < 65536) (hfin : paddle.platform.isfinite x = true) :
    ceil_bfloat16 C x = ⟨bf16.ceil x.x⟩ := by
  obtain ⟨hb, hn⟩ := finite_of_isfinite x hfin
  have h1 := hW x hx hn
  have h2 := Fmt.ceil_transfer bf16 f32 valid_bf16 valid_f32 (by decide) x.x _ hb h1
  obtain ⟨-, g2, -⟩ := Fmt.ceil_fields bf16 valid_bf16 x.x hb
  exact hN _ ⟨bf16.ceil x.x⟩ (Fmt.ceil_lt bf16 valid_bf16 x.x hb)
    (Fmt.isnan_false_of_isfinite bf16 _ g2) h2

/-- The overlay `round` is the rounding of the bfloat16 layout itself. -/
theorem round_bfloat16_eq (C : Conversion) (hW : C.WidenExact) (hN : C.NarrowExact)
    (x : bfloat16) (hx : x.x < 65536) (hfin : paddle.platform.isfinite x = true) :
    round_bfloat16 C x = ⟨bf16.round x.x⟩ := by
  obtain ⟨hb, hn⟩ := finite_of_isfinite x hfin
  have h1 := hW x hx hn
  have h2 := Fmt.round_transfer bf16 f32 valid_bf16 valid_f32 (by decide) x.x _ hb h1
  obtain ⟨-, g2, -⟩ := Fmt.round_fields bf16 valid_bf16 x.x hb
  exact hN _ ⟨bf16.round x.x⟩ (Fmt.round_lt bf16 valid_bf16 x.x hb)
    (Fmt.isnan_false_of_isfinite bf16 _ g2) h2

theorem fabs_bf16_lt (x : Nat) : bf16.fabs x < 65536 := by
  show x % 2 ^ 15 < 65536
  omega

theorem isnan_fabs (F : Fmt) (x : Nat) : F.isnan (F.fabs x) = F.isnan x := by
  unfold Fmt.isnan
  rw [Fmt.expo_fabs, Fmt.mant_fabs]

/-- The single-precision route of `abs` clears the sign bit. -/
theorem abs_bfloat16_single_eq (C : Conversion) (hW : C.WidenExact) (hN : C.NarrowExact)
    (a : bfloat16) (ha : a.x < 65536) (hn : paddle.platform.isnan a = false) :
    abs_bfloat16_single C a = ⟨bf16.fabs a.x⟩ := by
  have h1 := hW a ha hn
  have h2 : f32.decode (fabsf (C.toFloat a)) = bf16.decode (bf16.fabs a.x) := by
    unfold fabsf
    rw [Fmt.decode_fabs, Fmt.decode_fabs, h1]
  exact hN _ ⟨bf16.fabs a.x⟩ (fabs_bf16_lt a.x) (by
    show bf16.isnan (bf16.fabs a.x) = false
    rw [isnan_fabs]; exact hn) h2

/-- The double-precision route of `abs` agrees with the single-precision one. -/
theorem abs_bfloat16_eq_single (C : Conversion) (hW : C.WidenExact)
    (a : bfloat16) (ha : a.x < 65536) (hn : paddle.platform.isnan a = false) :
    abs_bfloat16 C a = abs_bfloat16_single C a := by
  have h1 := hW a ha hn
  have hn2 : f32.isnan (C.toFloat a) = false := by
    by_contra hcon
    have h3 : f32.decode (C.toFloat a) = Val.nan := by
      unfold Fmt.decode; rw [if_pos (by simpa using hcon)]
    rw [h1] at h3
    exact Fmt.decode_ne_nan bf16 a.x hn h3
  unfold abs_bfloat16 abs_bfloat16_single
  rw [double_fabs_eq_fabsf _ hn2]

theorem toRat_fabs (F : Fmt) (x : Nat) : F.toRat (F.fabs x) = |F.toRat x| := by
  unfold Fmt.toRat Fmt.scaled
  rw [Fmt.sign_fabs, Fmt.expo_fabs, Fmt.mant_fabs]
  have hpos : (0 : ℚ) ≤ (F.mag (F.expo x) (F.mant x) : ℚ) / 2 ^ F.scale := by positivity
  cases F.sign x
  · simp only [Bool.false_eq_true, if_false, one_mul]
    rw [abs_of_nonneg hpos]
  · simp only [Bool.false_eq_true, if_false, one_mul, if_true]
    rw [neg_one_mul, neg_div, abs_neg, abs_of_nonneg hpos]

end Eigen.numext

namespace Eigen

open IEEE paddle.platform

/-- C1, evaluated on the code: `NumTraits<bfloat16>::epsilon()` is the pattern `0x3400`,
which the bfloat16 layout decodes to `2^-23`, not to `1/128`; the pattern that decodes to
`1/128` is `0x3c00`. -/
theorem epsilon_decodes_to_two_pow_neg_23 :
    NumTraits_bfloat16.epsilon.x = 0x3400 ∧
      bf16.toRat NumTraits_bfloat16.epsilon.x = 1 / 2 ^ 23 ∧
      bf16.toRat NumTraits_bfloat16.epsilon.x ≠ 1 / 128 ∧
      bf16.toRat 0x3c00 = 1 / 128 := by
  have h1 : NumTraits_bfloat16.epsilon.x = 0x3400 := by decide
  have h2 : bf16.toRat 0x3400 = 1 / 2 ^ 23 := by
    rw [Fmt.toRat_of_fields bf16 0x3400 false (2 ^ 110) (by decide) (by decide), scale_bf16]
    norm_num
  have h3 : bf16.toRat 0x3c00 = 1 / 128 := by
    rw [Fmt.toRat_of_fields bf16 0x3c00 false (2 ^ 126) (by decide) (by decide), scale_bf16]
    norm_num
  refine ⟨h1, ?_, ?_, h3⟩
  · rw [h1]; exact h2
  · rw [h1, h2]; norm_num

theorem mag_le_highest (E m : Nat) (hE : E < 255) (hm : m < 128) :
    bf16.mag E m ≤ 255 * 2 ^ 253 := by
  show (if E = 0 then m else (2 ^ 7 + m) * 2 ^ (E - 1)) ≤ 255 * 2 ^ 253
  split
  · have : (1 : Nat) ≤ 2 ^ 253 := Nat.one_le_two_pow
    omega
  · exact Nat.mul_le_mul (by omega) (Nat.pow_le_pow_right (by decide) (by omega))

/-- C3: `highest()` is the largest and `lowest()` the most negative finite bfloat16: every
pattern with exponent field not all ones has its value between theirs, both are finite, and
`lowest()` is `highest()` negated (same bits but for the sign). -/
theorem highest_lowest_bound (p : bfloat16) (hp : bf16.isfinite p.x = true) :
    bf16.toRat NumTraits_bfloat16.lowest.x ≤ bf16.toRat p.x ∧
      bf16.toRat p.x ≤ bf16.toRat NumTraits_bfloat16.highest.x ∧
      bf16.isfinite NumTraits_bfloat16.highest.x = true ∧
      bf16.isfinite NumTraits_bfloat16.lowest.x = true ∧
      bf16.toRat NumTraits_bfloat16.lowest.x = -bf16.toRat NumTraits_bfloat16.highest.x ∧
      NumTraits_bfloat16.lowest.x = NumTraits_bfloat16.highest.x + 0x8000 := by
  have hh : bf16.toRat NumTraits_bfloat16.highest.x = (255 * 2 ^ 253 : ℕ) / 2 ^ 133 := by
    rw [Fmt.toRat_of_fields bf16 _ false (255 * 2 ^ 253) (by decide) (by decide), scale_bf16]
    simp
  have hl : bf16.toRat NumTraits_bfloat16.lowest.x = -((255 * 2 ^ 253 : ℕ) / 2 ^ 133) := by
    rw [Fmt.toRat_of_fields bf16 _ true (255 * 2 ^ 253) (by decide) (by decide), scale_bf16]
    simp only [if_true]
    ring
  have hE : bf16.expo p.x < 255 := Fmt.expo_lt_of_isfinite bf16 p.x hp
  have hm : bf16.mant p.x < 128 := Fmt.mant_lt bf16 p.x
  have hN : bf16.scaled p.x ≤ 255 * 2 ^ 253 := mag_le_highest _ _ hE hm
  have hNq : ((bf16.scaled p.x : ℕ) : ℚ) / 2 ^ 133 ≤ ((255 * 2 ^ 253 : ℕ) : ℚ) / 2 ^ 133 :=
    div_le_div_of_nonneg_right (by exact_mod_cast hN) (by positivity)
  have h0 : (0 : ℚ) ≤ ((bf16.scaled p.x : ℕ) : ℚ) / 2 ^ 133 := by positivity
  have hp2 : bf16.toRat p.x = (if bf16.sign p.x then -1 else 1) *
      ((bf16.scaled p.x : ℕ) : ℚ) / 2 ^ 133 := by
    rw [Fmt.toRat_of_fields bf16 p.x _ _ rfl rfl, scale_bf16]
  refine ⟨?_, ?_, by decide, by decide, by rw [hl, hh], by decide⟩
  · rw [hl, hp2]
    cases bf16.sign p.x
    · simp only [Bool.false_eq_true, if_false, one_mul]
      linarith
    · simp only [if_true]
      rw [neg_one_mul, neg_div]
      linarith
  · rw [hh, hp2]
    cases bf16.sign p.x
    · simp only [Bool.false_eq_true, if_false, one_mul]
      exact hNq
    · simp only [if_true]
      rw [neg_one_mul, neg_div]
      linarith

/-- C3 at the pattern of `1.0`. -/
theorem highest_lowest_bound_witness :
    bf16.toRat NumTraits_bfloat16.lowest.x ≤ bf16.toRat (bfloat16.mk 0x3f80).x ∧
      bf16.toRat (bfloat16.mk 0x3f80).x ≤ bf16.toRat NumTraits_bfloat16.highest.x :=
  ⟨(highest_lowest_bound ⟨0x3f80⟩ (by decide)).1, (highest_lowest_bound ⟨0x3f80⟩ (by decide)).2.1⟩

/-- C4: every special-value constant falls in its category: `epsilon()`, `highest()` and
`lowest()` are finite; `infinity()` has sign 0, exponent all ones, mantissa 0;
`quiet_NaN()` has exponent all ones, a non-zero mantissa with the top mantissa bit set, and
is not the pattern `0x7fc0`; so `isnan(quiet_NaN())`, `isinf(infinity())` and
`isfinite(highest())` hold. -/
theorem special_values_classified :
    (numext.isfinite NumTraits_bfloat16.epsilon = true ∧
      numext.isfinite NumTraits_bfloat16.highest = true ∧
      numext.isfinite NumTraits_bfloat16.lowest = true) ∧
    (numext.isnan NumTraits_bfloat16.epsilon = false ∧
      numext.isnan NumTraits_bfloat16.highest = false ∧
      numext.isnan NumTraits_bfloat16.lowest = false ∧
      numext.isinf NumTraits_bfloat16.epsilon = false ∧
      numext.isinf NumTraits_bfloat16.highest = false ∧
      numext.isinf NumTraits_bfloat16.lowest = false) ∧
    (NumTraits_bfloat16.infinity.x = 0x7f80 ∧
      bf16.sign NumTraits_bfloat16.infinity.x = false ∧
      bf16.expo NumTraits_bfloat16.infinity.x = 255 ∧
      bf16.mant NumTraits_bfloat16.infinity.x = 0) ∧
    (bf16.expo NumTraits_bfloat16.quiet_NaN.x = 255 ∧
      bf16.mant NumTraits_bfloat16.quiet_NaN.x ≠ 0 ∧
      bf16.mant NumTraits_bfloat16.quiet_NaN.x / 64 % 2 = 1 ∧
      NumTraits_bfloat16.quiet_NaN.x ≠ 0x7fc0) ∧
    (numext.isnan NumTraits_bfloat16.quiet_NaN = true ∧
      numext.isinf NumTraits_bfloat16.infinity = true ∧
      numext.isfinite NumTraits_bfloat16.highest = true) := by
  decide


/-- C5: for every finite bfloat16 `x`, `floor(x) ≤ x ≤ ceil(x)` as exact rationals, for any
conversion pair whose widening is exact and whose narrowing is exact on representable
values; the two results are finite and are the integer floor and ceiling of `x`. -/
theorem floor_le_le_ceil (C : Conversion) (hW : C.WidenExact) (hN : C.NarrowExact)
    (x : bfloat16) (hx : x.x < 65536) (hfin : numext.isfinite x = true) :
    bf16.toRat (numext.floor_bfloat16 C x).x ≤ bf16.toRat x.x ∧
      bf16.toRat x.x ≤ bf16.toRat (numext.ceil_bfloat16 C x).x ∧
      numext.isfinite (numext.floor_bfloat16 C x) = true ∧
      numext.isfinite (numext.ceil_bfloat16 C x) = true ∧
      bf16.toRat (numext.floor_bfloat16 C x).x = ((⌊bf16.toRat x.x⌋ : ℤ) : ℚ) ∧
      bf16.toRat (numext.ceil_bfloat16 C x).x = ((⌈bf16.toRat x.x⌉ : ℤ) : ℚ) := by
  obtain ⟨hb, -⟩ := numext.finite_of_isfinite x hfin
  have hf := Fmt.toRat_floor bf16 valid_bf16 x.x hb
  have hc := Fmt.toRat_ceil bf16 valid_bf16 x.x hb
  obtain ⟨-, f2, -⟩ := Fmt.floor_fields bf16 valid_bf16 x.x hb
  obtain ⟨-, c2, -⟩ := Fmt.ceil_fields bf16 valid_bf16 x.x hb
  rw [numext.floor_bfloat16_eq C hW hN x hx hfin, numext.ceil_bfloat16_eq C hW hN x hx hfin]
  refine ⟨?_, ?_, ?_, ?_, hf, hc⟩
  · show bf16.toRat (bf16.floor x.x) ≤ _
    rw [hf]; exact Int.floor_le _
  · show _ ≤ bf16.toRat (bf16.ceil x.x)
    rw [hc]; exact Int.le_ceil _
  · show (!bf16.isnan (bf16.floor x.x) && !bf16.isinf (bf16.floor x.x)) = true
    rw [Fmt.isnan_false_of_isfinite bf16 _ f2, Fmt.isinf_false_of_isfinite bf16 _ f2]
    rfl
  · show (!bf16.isnan (bf16.ceil x.x) && !bf16.isinf (bf16.ceil x.x)) = true
    rw [Fmt.isnan_false_of_isfinite bf16 _ c2, Fmt.isinf_false_of_isfinite bf16 _ c2]
    rfl

/-- C5 at `x = -1.703125` (pattern `0xbfda`): with the truncating conversion the floor is
`-2.0` (`0xc000`) and the ceiling `-1.0` (`0xbf80`); the bounds also hold with the
conversion that rounds to nearest. -/
theorem floor_le_le_ceil_witness :
    numext.floor_bfloat16 truncating ⟨0xbfda⟩ = ⟨0xc000⟩ ∧
      numext.ceil_bfloat16 truncating ⟨0xbfda⟩ = ⟨0xbf80⟩ ∧
      bf16.toRat (numext.floor_bfloat16 truncating ⟨0xbfda⟩).x ≤ bf16.toRat 0xbfda ∧
      bf16.toRat 0xbfda ≤ bf16.toRat (numext.ceil_bfloat16 truncating ⟨0xbfda⟩).x ∧
      bf16.toRat (numext.floor_bfloat16 rounding ⟨0xbfda⟩).x ≤ bf16.toRat 0xbfda ∧
      bf16.toRat 0xbfda ≤ bf16.toRat (numext.ceil_bfloat16 rounding ⟨0xbfda⟩).x :=
  ⟨by decide, by decide,
    (floor_le_le_ceil truncating widenExact_truncating narrowExact_truncating ⟨0xbfda⟩
      (by decide) (by decide)).1,
    (floor_le_le_ceil truncating widenExact_truncating narrowExact_truncating ⟨0xbfda⟩
      (by decide) (by decide)).2.1,
    (floor_le_le_ceil rounding widenExact_rounding narrowExact_rounding ⟨0xbfda⟩
      (by decide) (by decide)).1,
    (floor_le_le_ceil rounding widenExact_rounding narrowExact_rounding ⟨0xbfda⟩
      (by decide) (by decide)).2.1⟩

/-- C6: for every finite bfloat16 `x`, `round(x)` is a finite integer that differs from `x`
by at most `1/2` as exact rationals, for any conversion pair whose widening is exact and
whose narrowing is exact on representable values. -/
theorem round_within_half (C : Conversion) (hW : C.WidenExact) (hN : C.NarrowExact)
    (x : bfloat16) (hx : x.x < 65536) (hfin : numext.isfinite x = true) :
    |bf16.toRat (numext.round_bfloat16 C x).x - bf16.toRat x.x| ≤ 1 / 2 ∧
      numext.isfinite (numext.round_bfloat16 C x) = true ∧
      ∃ z : ℤ, bf16.toRat (numext.round_bfloat16 C x).x = (z : ℚ) := by
  obtain ⟨hb, -⟩ := numext.finite_of_isfinite x hfin
  obtain ⟨hz, hd⟩ := Fmt.toRat_round bf16 valid_bf16 x.x hb
  obtain ⟨-, r2, -⟩ := Fmt.round_fields bf16 valid_bf16 x.x hb
  rw [numext.round_bfloat16_eq C hW hN x hx hfin]
  refine ⟨hd, ?_, hz⟩
  show (!bf16.isnan (bf16.round x.x) && !bf16.isinf (bf16.round x.x)) = true
  rw [Fmt.isnan_false_of_isfinite bf16 _ r2, Fmt.isinf_false_of_isfinite bf16 _ r2]
  rfl

/-- C6 at `x = 2.5` (pattern `0x4020`) with the truncating conversion: the result is `3.0`
(`0x4040`), half away from zero. -/
theorem round_within_half_witness :
    numext.round_bfloat16 truncating ⟨0x4020⟩ = ⟨0x4040⟩ ∧
      |bf16.toRat (numext.round_bfloat16 truncating ⟨0x4020⟩).x - bf16.toRat 0x4020| ≤ 1 / 2 :=
  ⟨by decide,
    (round_within_half truncating widenExact_truncating narrowExact_truncating ⟨0x4020⟩
      (by decide) (by decide)).1⟩

/-- C9: for every non-NaN bfloat16 `a`, `abs(a)` is `a` with the sign bit cleared (pattern
`a.x AND 0x7fff`: same exponent and mantissa bits, sign 0), it is idempotent, the
single-precision intermediate gives the same result as the double-precision one, and for
finite `a` its value is `|value(a)| ≥ 0`; for any conversion pair whose widening is exact
and whose narrowing is exact on representable values. -/
theorem abs_bfloat16_clears_sign (C : Conversion) (hW : C.WidenExact) (hN : C.NarrowExact)
    (a : bfloat16) (ha : a.x < 65536) (hn : numext.isnan a = false) :
    (numext.abs_bfloat16 C a).x = a.x &&& 0x7fff ∧
      bf16.sign (numext.abs_bfloat16 C a).x = false ∧
      bf16.expo (numext.abs_bfloat16 C a).x = bf16.expo a.x ∧
      bf16.mant (numext.abs_bfloat16 C a).x = bf16.mant a.x ∧
      numext.abs_bfloat16 C (numext.abs_bfloat16 C a) = numext.abs_bfloat16 C a ∧
      numext.abs_bfloat16_single C a = numext.abs_bfloat16 C a ∧
      bf16.toRat (numext.abs_bfloat16 C a).x = |bf16.toRat a.x| ∧
      0 ≤ bf16.toRat (numext.abs_bfloat16 C a).x := by
  have key : ∀ b : bfloat16, b.x < 65536 → paddle.platform.isnan b = false →
      numext.abs_bfloat16 C b = ⟨bf16.fabs b.x⟩ := by
    intro b hb hbn
    rw [numext.abs_bfloat16_eq_single C hW b hb hbn,
      numext.abs_bfloat16_single_eq C hW hN b hb hbn]
  have h1 := key a ha hn
  have h2 : paddle.platform.isnan (⟨bf16.fabs a.x⟩ : bfloat16) = false := by
    show bf16.isnan (bf16.fabs a.x) = false
    rw [numext.isnan_fabs]; exact hn
  have h3 := key ⟨bf16.fabs a.x⟩ (numext.fabs_bf16_lt a.x) h2
  have h4 : bf16.fabs (bf16.fabs a.x) = bf16.fabs a.x := by
    show a.x % 2 ^ 15 % 2 ^ 15 = a.x % 2 ^ 15
    exact Nat.mod_mod _ _
  have h5 : a.x &&& 0x7fff = bf16.fabs a.x := by
    show a.x &&& 2 ^ 15 - 1 = a.x % 2 ^ 15
    exact Nat.and_pow_two_sub_one_eq_mod a.x 15
  refine ⟨?_, ?_, ?_, ?_, ?_, ?_, ?_, ?_⟩
  · rw [h1, h5]
  · rw [h1]; exact Fmt.sign_fabs bf16 a.x
  · rw [h1]; exact Fmt.expo_fabs bf16 a.x
  · rw [h1]; exact Fmt.mant_fabs bf16 a.x
  · rw [h1, h3, h4]
  · exact (numext.abs_bfloat16_eq_single C hW a ha hn).symm
  · rw [h1]; exact numext.toRat_fabs bf16 a.x
  · rw [h1]
    show 0 ≤ bf16.toRat (bf16.fabs a.x)
    rw [numext.toRat_fabs]; exact abs_nonneg _

/-- C9 at `a = -1.703125` (pattern `0xbfda`) and at negative infinity (`0xff80`) with the
truncating conversion. -/
theorem abs_bfloat16_clears_sign_witness :
    numext.abs_bfloat16 truncating ⟨0xbfda⟩ = ⟨0x3fda⟩ ∧
      numext.abs_bfloat16 truncating ⟨0xff80⟩ = ⟨0x7f80⟩ ∧
      (numext.abs_bfloat16 truncating ⟨0xbfda⟩).x = 0xbfda &&& 0x7fff :=
  ⟨by decide!, by decide!,
    (abs_bfloat16_clears_sign truncating widenExact_truncating narrowExact_truncating ⟨0xbfda⟩
      (by decide) (by decide)).1⟩


/-- C8: on a complex64 with finite components, `ceil`, `round` and `floor` act on each
component with the single-precision function; in particular the double-precision `floor`
on the promoted imaginary part, narrowed back, is `floorf`. And
`ceil(complex64(1.2, -1.7)) = complex64(2.0, -1.0)`. -/
theorem complex64_rounding_componentwise (z : complex64)
    (hre : f32.isfinite z.real = true) (him : f32.isfinite z.imag = true) :
    numext.ceil_complex64 z = ⟨ceilf z.real, ceilf z.imag⟩ ∧
      numext.round_complex64 z = ⟨roundf z.real, roundf z.imag⟩ ∧
      numext.floor_complex64 z = ⟨floorf z.real, floorf z.imag⟩ ∧
      double_to_float (floor (float_to_double z.imag)) = floorf z.imag ∧
      double_to_float (floor (float_to_double z.real)) = floorf z.real ∧
      numext.ceil_complex64 ⟨f32.literal false 12 10, f32.literal true 17 10⟩
        = ⟨f32.literal false 2 1, f32.literal true 1 1⟩ := by
  refine ⟨rfl, rfl, ?_, double_floor_eq_floorf z.imag him, double_floor_eq_floorf z.real hre,
    by decide!⟩
  unfold numext.floor_complex64
  rw [double_floor_eq_floorf z.imag him]

/-- C8 at `z = complex64(1.2, -1.7)`, whose components are the binary32 patterns
`0x3f99999a` and `0xbfd9999a`: `ceil` gives `(2.0, -1.0)` and `floor` gives `(1.0, -2.0)`. -/
theorem complex64_rounding_componentwise_witness :
    f32.literal false 12 10 = 0x3f99999a ∧ f32.literal true 17 10 = 0xbfd9999a ∧
      numext.ceil_complex64 ⟨0x3f99999a, 0xbfd9999a⟩ = ⟨0x40000000, 0xbf800000⟩ ∧
      numext.floor_complex64 ⟨0x3f99999a, 0xbfd9999a⟩ = ⟨0x3f800000, 0xc0000000⟩ ∧
      numext.floor_complex64 ⟨0x3f99999a, 0xbfd9999a⟩
        = ⟨floorf 0x3f99999a, floorf 0xbfd9999a⟩ :=
  ⟨by decide!, by decide!, by decide!, by decide!,
    (complex64_rounding_componentwise ⟨0x3f99999a, 0xbfd9999a⟩ (by decide) (by decide)).2.2.1⟩

/-- C7: complex128 `exp` evaluates `expf`, `cosf` and `sinf` on the components narrowed to
`float`, so two inputs whose real parts narrow to the same `float` and whose imaginary
parts narrow to the same `float` have the same result, whatever the host functions are. -/
theorem exp_complex128_single_precision (H : Host) (a b : complex128)
    (hre : double_to_float a.real = double_to_float b.real)
    (him : double_to_float a.imag = double_to_float b.imag) :
    numext.exp_complex128 H a = numext.exp_complex128 H b ∧
      numext.exp_complex128 H a =
        ⟨H.muld (float_to_double (H.expf (double_to_float a.real)))
            (float_to_double (H.cosf (double_to_float a.imag))),
          H.muld (float_to_double (H.expf (double_to_float a.real)))
            (float_to_double (H.sinf (double_to_float a.imag)))⟩ := by
  refine ⟨?_, rfl⟩
  unfold numext.exp_complex128
  rw [hre, him]

/-- C7 at the inputs `(16777217.0, 0.0)` and `(16777216.0, 0.0)`: different doubles, the
same `float` after narrowing, hence the same `exp`. -/
theorem exp_complex128_single_precision_witness :
    (⟨0x4170000010000000, 0⟩ : complex128) ≠ ⟨0x4170000000000000, 0⟩ ∧
      numext.exp_complex128 ⟨fun x => x, fun x => x, fun x => x, fun x _ => x, fun x _ => x⟩
          ⟨0x4170000010000000, 0⟩ =
        numext.exp_complex128 ⟨fun x => x, fun x => x, fun x => x, fun x _ => x, fun x _ => x⟩
          ⟨0x4170000000000000, 0⟩ :=
  ⟨by decide,
    (exp_complex128_single_precision
      ⟨fun x => x, fun x => x, fun x => x, fun x _ => x, fun x _ => x⟩
      ⟨0x4170000010000000, 0⟩ ⟨0x4170000000000000, 0⟩ (by decide!) (by decide!)).1⟩

/-- C10: `dummy_precision()`, the float `1e-5f` (pattern `0x3727c5ac`, within half a unit
in the last place of `1/100000`) narrowed to bfloat16 by truncation (`0x3727`) or by
rounding to nearest (`0x3728`), is a positive finite value strictly above the value of the
`epsilon()` pattern, itself positive and finite. -/
theorem dummy_precision_gt_epsilon :
    bf16.toRat NumTraits_bfloat16.epsilon.x
        < bf16.toRat (NumTraits_bfloat16.dummy_precision truncating).x ∧
      bf16.toRat NumTraits_bfloat16.epsilon.x
        < bf16.toRat (NumTraits_bfloat16.dummy_precision rounding).x ∧
      0 < bf16.toRat NumTraits_bfloat16.epsilon.x ∧
      numext.isfinite NumTraits_bfloat16.epsilon = true ∧
      numext.isfinite (NumTraits_bfloat16.dummy_precision truncating) = true ∧
      numext.isfinite (NumTraits_bfloat16.dummy_precision rounding) = true ∧
      NumTraits_bfloat16.lit_1em5f = 0x3727c5ac ∧
      |f32.toRat NumTraits_bfloat16.lit_1em5f - 1 / 100000| < 1 / 2 ^ 41 ∧
      (NumTraits_bfloat16.dummy_precision truncating).x = 0x3727 ∧
      (NumTraits_bfloat16.dummy_precision rounding).x = 0x3728 := by
  have ht : (NumTraits_bfloat16.dummy_precision truncating).x = 0x3727 := by decide!
  have hr : (NumTraits_bfloat16.dummy_precision rounding).x = 0x3728 := by decide!
  have he : NumTraits_bfloat16.epsilon.x = 0x3400 := by decide
  have h1 : bf16.toRat 0x3400 = 1 / 2 ^ 23 := by
    rw [Fmt.toRat_of_fields bf16 0x3400 false (2 ^ 110) (by decide) (by decide), scale_bf16]
    norm_num
  have h2 : bf16.toRat 0x3727 = 167 / 2 ^ 24 := by
    rw [Fmt.toRat_of_fields bf16 0x3727 false (167 * 2 ^ 109) (by decide) (by decide),
      scale_bf16]
    norm_num
  have h3 : bf16.toRat 0x3728 = 168 / 2 ^ 24 := by
    rw [Fmt.toRat_of_fields bf16 0x3728 false (168 * 2 ^ 109) (by decide) (by decide),
      scale_bf16]
    norm_num
  have hl : NumTraits_bfloat16.lit_1em5f = 0x3727c5ac := by decide!
  have h4 : f32.toRat 0x3727c5ac = 10995116 / 2 ^ 40 := by
    rw [Fmt.toRat_of_fields f32 0x3727c5ac false (10995116 * 2 ^ 109) (by decide) (by decide),
      scale_f32]
    norm_num
  refine ⟨?_, ?_, ?_, by decide, by decide!, by decide!, hl, ?_, ht, hr⟩
  · rw [ht, he, h1, h2]; norm_num
  · rw [hr, he, h1, h3]; norm_num
  · rw [he, h1]; norm_num
  · rw [hl, h4, abs_lt]
    constructor <;> norm_num

/-- C2, evaluated on the code: `ceil` of the complex128 `(16777217.0, 0.0)` has real part
`16777216.0`, below the operand, because the component goes through `::ceilf` and
`16777217.0` lies halfway between the adjacent floats `16777216.0` and `16777218.0`; the
double-precision `ceil` keeps `16777217.0`. The same holds for `round` and for the real
part of `floor`. -/
theorem ceil_complex128_narrows :
    f64.literal false 16777217 1 = 0x4170000010000000 ∧
      numext.ceil_complex128 ⟨0x4170000010000000, 0⟩ = ⟨0x4170000000000000, 0⟩ ∧
      numext.round_complex128 ⟨0x4170000010000000, 0⟩ = ⟨0x4170000000000000, 0⟩ ∧
      numext.floor_complex128 ⟨0x4170000010000000, 0⟩ = ⟨0x4170000000000000, 0⟩ ∧
      double_to_float 0x4170000010000000 = 0x4b800000 ∧
      f32.toRat 0x4b800000 = 16777216 ∧
      f32.toRat 0x4b800001 = 16777218 ∧
      ceil 0x4170000010000000 = 0x4170000010000000 ∧
      f64.toRat 0x4170000010000000 = 16777217 ∧
      f64.toRat 0x4170000000000000 = 16777216 ∧
      f64.toRat (numext.ceil_complex128 ⟨0x4170000010000000, 0⟩).real
        < f64.toRat 0x4170000010000000 := by
  have h1 : numext.ceil_complex128 ⟨0x4170000010000000, 0⟩ = ⟨0x4170000000000000, 0⟩ := by
    decide!
  have h2 : f64.toRat 0x4170000010000000 = 16777217 := by
    rw [Fmt.toRat_of_integral f64 0x4170000010000000 false 16777217 (by decide!) (by decide!)]
    norm_num
  have h3 : f64.toRat 0x4170000000000000 = 16777216 := by
    rw [Fmt.toRat_of_integral f64 0x4170000000000000 false 16777216 (by decide!) (by decide!)]
    norm_num
  have h4 : f32.toRat 0x4b800000 = 16777216 := by
    rw [Fmt.toRat_of_integral f32 0x4b800000 false 16777216 (by decide) (by decide)]
    norm_num
  have h5 : f32.toRat 0x4b800001 = 16777218 := by
    rw [Fmt.toRat_of_integral f32 0x4b800001 false 16777218 (by decide) (by decide)]
    norm_num
  refine ⟨by decide!, h1, by decide!, by decide!, by decide!, h4, h5, by decide!, h2, h3, ?_⟩
  rw [h1, h2]
  show f64.toRat 0x4170000000000000 < 16777217
  rw [h3]; norm_num

end Eigen
